import Mathlib

/-!
Verification of the quantitative CTL evaluator in `src/ctl_formulae.py`
(repository quantCTL).

States of the Kripke structure are tuples of integers, modelled as `List ℤ`.
Scores are real numbers in the source; every score the program manipulates is
a rational (quotients of weighted integer distances), so scores are modelled
as `ℚ`.  The result table is keyed by the canonical `repr` string of each
formula, exactly as the Python dictionary `formulae_evaluations[state][repr(f)]`.

The external kernel functions `weighted_signed_distance` and
`find_extreme_state` live in `src/satisfaction_degree.py`, which is not part
of the provided sources; they are modelled from the specification (§4.2),
as is the top-level driver (§6).  Everything else is translated directly from
`src/ctl_formulae.py`.
-/

namespace QuantCTL

/-- A state of the Kripke structure: a tuple of integer activity levels. -/
abbrev State := List ℤ

/-- `min` of a list of scores, as Python's `min([...])` on a nonempty list;
the `[]` case is junk (Python raises) and is never exercised under the
evaluator's no-sink precondition. -/
def listMin : List ℚ → ℚ
  | [] => 0
  | x :: xs => xs.foldl min x

/-- `max` of a list of scores, as Python's `max([...])` on a nonempty list. -/
def listMax : List ℚ → ℚ
  | [] => 0
  | x :: xs => xs.foldl max x

lemma foldl_min_le_init (l : List ℚ) (a : ℚ) : l.foldl min a ≤ a := by
  induction l generalizing a with
  | nil => simp
  | cons x xs ih => exact le_trans (ih (min a x)) (min_le_left a x)

lemma foldl_min_le_mem (l : List ℚ) (a x : ℚ) (hx : x ∈ l) : l.foldl min a ≤ x := by
  induction l generalizing a with
  | nil => cases hx
  | cons y ys ih =>
    rcases List.mem_cons.mp hx with h | h
    · subst h
      exact le_trans (foldl_min_le_init ys (min a x)) (min_le_right a x)
    · exact ih (min a y) h

lemma le_foldl_min (l : List ℚ) (a b : ℚ) (ha : b ≤ a) (hl : ∀ x ∈ l, b ≤ x) :
    b ≤ l.foldl min a := by
  induction l generalizing a with
  | nil => exact ha
  | cons y ys ih =>
    exact ih (min a y) (le_min ha (hl y (List.mem_cons_self y ys)))
      (fun x hx => hl x (List.mem_cons_of_mem y hx))

lemma init_le_foldl_max (l : List ℚ) (a : ℚ) : a ≤ l.foldl max a := by
  induction l generalizing a with
  | nil => simp
  | cons x xs ih => exact le_trans (le_max_left a x) (ih (max a x))

lemma mem_le_foldl_max (l : List ℚ) (a x : ℚ) (hx : x ∈ l) : x ≤ l.foldl max a := by
  induction l generalizing a with
  | nil => cases hx
  | cons y ys ih =>
    rcases List.mem_cons.mp hx with h | h
    · subst h
      exact le_trans (le_max_right a x) (init_le_foldl_max ys (max a x))
    · exact ih (max a y) h

lemma foldl_max_le (l : List ℚ) (a b : ℚ) (ha : a ≤ b) (hl : ∀ x ∈ l, x ≤ b) :
    l.foldl max a ≤ b := by
  induction l generalizing a with
  | nil => exact ha
  | cons y ys ih =>
    exact ih (max a y) (max_le ha (hl y (List.mem_cons_self y ys)))
      (fun x hx => hl x (List.mem_cons_of_mem y hx))

lemma listMin_le_of_mem (l : List ℚ) (x : ℚ) (hx : x ∈ l) : listMin l ≤ x := by
  cases l with
  | nil => cases hx
  | cons y ys =>
    rcases List.mem_cons.mp hx with h | h
    · subst h; exact foldl_min_le_init ys x
    · exact foldl_min_le_mem ys y x h

lemma le_listMax_of_mem (l : List ℚ) (x : ℚ) (hx : x ∈ l) : x ≤ listMax l := by
  cases l with
  | nil => cases hx
  | cons y ys =>
    rcases List.mem_cons.mp hx with h | h
    · subst h; exact init_le_foldl_max ys x
    · exact mem_le_foldl_max ys y x h

lemma listMin_bounds (l : List ℚ) (lo hi : ℚ) (hlo : lo ≤ 0) (hhi : 0 ≤ hi)
    (h : ∀ x ∈ l, lo ≤ x ∧ x ≤ hi) : lo ≤ listMin l ∧ listMin l ≤ hi := by
  cases l with
  | nil => exact ⟨hlo, hhi⟩
  | cons y ys =>
    constructor
    · exact le_foldl_min ys y lo (h y (List.mem_cons_self y ys)).1
        (fun x hx => (h x (List.mem_cons_of_mem y hx)).1)
    · exact le_trans (foldl_min_le_init ys y) (h y (List.mem_cons_self y ys)).2

lemma listMax_bounds (l : List ℚ) (lo hi : ℚ) (hlo : lo ≤ 0) (hhi : 0 ≤ hi)
    (h : ∀ x ∈ l, lo ≤ x ∧ x ≤ hi) : lo ≤ listMax l ∧ listMax l ≤ hi := by
  cases l with
  | nil => exact ⟨hlo, hhi⟩
  | cons y ys =>
    constructor
    · exact le_trans (h y (List.mem_cons_self y ys)).1 (init_le_foldl_max ys y)
    · exact foldl_max_le ys y hi (h y (List.mem_cons_self y ys)).2
        (fun x hx => (h x (List.mem_cons_of_mem y hx)).2)

lemma foldl_min_mono (l₁ l₂ : List ℚ) (h : List.Forall₂ (· ≤ ·) l₁ l₂)
    (a b : ℚ) (hab : a ≤ b) : l₁.foldl min a ≤ l₂.foldl min b := by
  induction h generalizing a b with
  | nil => exact hab
  | cons hxy _ ih => exact ih _ _ (min_le_min hab hxy)

lemma foldl_max_mono (l₁ l₂ : List ℚ) (h : List.Forall₂ (· ≤ ·) l₁ l₂)
    (a b : ℚ) (hab : a ≤ b) : l₁.foldl max a ≤ l₂.foldl max b := by
  induction h generalizing a b with
  | nil => exact hab
  | cons hxy _ ih => exact ih _ _ (max_le_max hab hxy)

lemma listMin_mono_map (l : List State) (F G : State → ℚ)
    (h : ∀ x ∈ l, F x ≤ G x) : listMin (l.map F) ≤ listMin (l.map G) := by
  cases l with
  | nil => simp [listMin]
  | cons y ys =>
    have hfa : List.Forall₂ (· ≤ ·) (ys.map F) (ys.map G) := by
      rw [List.forall₂_map_right_iff, List.forall₂_map_left_iff]
      exact List.forall₂_same.mpr (fun x hx => h x (List.mem_cons_of_mem y hx))
    exact foldl_min_mono _ _ hfa _ _ (h y (List.mem_cons_self y ys))

lemma listMax_mono_map (l : List State) (F G : State → ℚ)
    (h : ∀ x ∈ l, F x ≤ G x) : listMax (l.map F) ≤ listMax (l.map G) := by
  cases l with
  | nil => simp [listMax]
  | cons y ys =>
    have hfa : List.Forall₂ (· ≤ ·) (ys.map F) (ys.map G) := by
      rw [List.forall₂_map_right_iff, List.forall₂_map_left_iff]
      exact List.forall₂_same.mpr (fun x hx => h x (List.mem_cons_of_mem y hx))
    exact foldl_max_mono _ _ hfa _ _ (h y (List.mem_cons_self y ys))

/-- The CTL formula AST of `src/ctl_formulae.py`: one constructor per class.
`atomicProp`, `negation`, `union`, `inter` are the atomic-level variants
(class `AtomicFormula`); the rest are state-level (`StateFormula`). -/
inductive Formula where
  | atomicProp (variable_ : String) (operator : String) (value : ℤ)
  | negation (operand : Formula)
  | union (left right : Formula)
  | inter (left right : Formula)
  | boolean (value : Bool)
  | conj (left right : Formula)
  | disj (left right : Formula)
  | ag (operand : Formula)
  | eg (operand : Formula)
  | af (operand : Formula)
  | ef (operand : Formula)
  | ax (operand : Formula)
  | ex (operand : Formula)
  | au (left right : Formula)
  | eu (left right : Formula)
  | aw (left right : Formula)
  | ew (left right : Formula)
  deriving DecidableEq

namespace Formula

/-- The canonical key of a formula: the `__repr__` strings of the source. -/
def reprF : Formula → String
  | atomicProp v op k => "(" ++ v ++ " " ++ op ++ " " ++ toString k ++ ")"
  | negation z => "!" ++ reprF z
  | union l r => "(" ++ reprF l ++ " | " ++ reprF r ++ ")"
  | inter l r => "(" ++ reprF l ++ " & " ++ reprF r ++ ")"
  | boolean b => if b then "True" else "False"
  | conj l r => "(" ++ reprF l ++ " && " ++ reprF r ++ ")"
  | disj l r => "(" ++ reprF l ++ " || " ++ reprF r ++ ")"
  | ag z => "AG (" ++ reprF z ++ ")"
  | eg z => "EG (" ++ reprF z ++ ")"
  | af z => "AF (" ++ reprF z ++ ")"
  | ef z => "EF (" ++ reprF z ++ ")"
  | ax z => "AX (" ++ reprF z ++ ")"
  | ex z => "EX (" ++ reprF z ++ ")"
  | au l r => "A (" ++ reprF l ++ ") U (" ++ reprF r ++ ")"
  | eu l r => "E (" ++ reprF l ++ ") U (" ++ reprF r ++ ")"
  | aw l r => "A (" ++ reprF l ++ ") W (" ++ reprF r ++ ")"
  | ew l r => "E (" ++ reprF l ++ ") W (" ++ reprF r ++ ")"

end Formula

lemma string_data_append (a b : String) : (a ++ b).data = a.data ++ b.data := rfl

lemma string_length_append (a b : String) : (a ++ b).length = a.length + b.length := by
  show (a.data ++ b.data).length = a.data.length + b.data.length
  exact List.length_append a.data b.data

lemma string_ne_of_length_ne (a b : String) (h : a.length ≠ b.length) : a ≠ b := by
  intro he; exact h (he ▸ rfl)

namespace Formula

/-- The key of a unary temporal node is 5 characters longer than its operand's. -/
lemma length_wrap5 (pre : String) (hpre : pre.length = 4) (s : String) :
    (pre ++ s ++ ")").length = s.length + 5 := by
  rw [string_length_append, string_length_append, hpre,
    show (")" : String).length = 1 by decide]
  omega

lemma length_binkey (pre mid : String) (hpre : pre.length = 3) (hmid : mid.length = 5)
    (s t : String) : (pre ++ s ++ mid ++ t ++ ")").length = s.length + t.length + 9 := by
  rw [string_length_append, string_length_append, string_length_append,
    string_length_append, hpre, hmid,
    show (")" : String).length = 1 by decide]
  omega

lemma reprF_ag_ne (z : Formula) : (ag z).reprF ≠ z.reprF := by
  apply string_ne_of_length_ne
  rw [show (ag z).reprF = "AG (" ++ z.reprF ++ ")" from rfl, length_wrap5 _ (by decide)]
  omega

lemma reprF_eg_ne (z : Formula) : (eg z).reprF ≠ z.reprF := by
  apply string_ne_of_length_ne
  rw [show (eg z).reprF = "EG (" ++ z.reprF ++ ")" from rfl, length_wrap5 _ (by decide)]
  omega

lemma reprF_af_ne (z : Formula) : (af z).reprF ≠ z.reprF := by
  apply string_ne_of_length_ne
  rw [show (af z).reprF = "AF (" ++ z.reprF ++ ")" from rfl, length_wrap5 _ (by decide)]
  omega

lemma reprF_ef_ne (z : Formula) : (ef z).reprF ≠ z.reprF := by
  apply string_ne_of_length_ne
  rw [show (ef z).reprF = "EF (" ++ z.reprF ++ ")" from rfl, length_wrap5 _ (by decide)]
  omega

lemma reprF_au_ne_left (l r : Formula) : (au l r).reprF ≠ l.reprF := by
  apply string_ne_of_length_ne
  rw [show (au l r).reprF = "A (" ++ l.reprF ++ ") U (" ++ r.reprF ++ ")" from rfl,
    length_binkey _ _ (by decide) (by decide)]
  omega

lemma reprF_au_ne_right (l r : Formula) : (au l r).reprF ≠ r.reprF := by
  apply string_ne_of_length_ne
  rw [show (au l r).reprF = "A (" ++ l.reprF ++ ") U (" ++ r.reprF ++ ")" from rfl,
    length_binkey _ _ (by decide) (by decide)]
  omega

lemma reprF_eu_ne_left (l r : Formula) : (eu l r).reprF ≠ l.reprF := by
  apply string_ne_of_length_ne
  rw [show (eu l r).reprF = "E (" ++ l.reprF ++ ") U (" ++ r.reprF ++ ")" from rfl,
    length_binkey _ _ (by decide) (by decide)]
  omega

lemma reprF_eu_ne_right (l r : Formula) : (eu l r).reprF ≠ r.reprF := by
  apply string_ne_of_length_ne
  rw [show (eu l r).reprF = "E (" ++ l.reprF ++ ") U (" ++ r.reprF ++ ")" from rfl,
    length_binkey _ _ (by decide) (by decide)]
  omega

lemma data_ag (z : Formula) :
    (ag z).reprF.data = 'A' :: 'G' :: ' ' :: '(' :: (z.reprF.data ++ [')']) := by
  show (("AG (" ++ z.reprF) ++ ")").data = _
  rw [string_data_append, string_data_append]
  rw [show ("AG (" : String).data = ['A', 'G', ' ', '('] from rfl,
    show (")" : String).data = [')'] from rfl]
  rw [List.append_assoc]
  rfl

lemma data_eg (z : Formula) :
    (eg z).reprF.data = 'E' :: 'G' :: ' ' :: '(' :: (z.reprF.data ++ [')']) := by
  show (("EG (" ++ z.reprF) ++ ")").data = _
  rw [string_data_append, string_data_append]
  rw [show ("EG (" : String).data = ['E', 'G', ' ', '('] from rfl,
    show (")" : String).data = [')'] from rfl]
  rw [List.append_assoc]
  rfl

lemma data_au (l r : Formula) :
    (au l r).reprF.data =
      'A' :: ' ' :: '(' :: (l.reprF.data ++
        (')' :: ' ' :: 'U' :: ' ' :: '(' :: (r.reprF.data ++ [')']))) := by
  show (((("A (" ++ l.reprF) ++ ") U (") ++ r.reprF) ++ ")").data = _
  rw [string_data_append, string_data_append, string_data_append, string_data_append]
  rw [show ("A (" : String).data = ['A', ' ', '('] from rfl,
    show (") U (" : String).data = [')', ' ', 'U', ' ', '('] from rfl,
    show (")" : String).data = [')'] from rfl]
  rw [List.append_assoc, List.append_assoc, List.append_assoc]
  rfl

lemma data_eu (l r : Formula) :
    (eu l r).reprF.data =
      'E' :: ' ' :: '(' :: (l.reprF.data ++
        (')' :: ' ' :: 'U' :: ' ' :: '(' :: (r.reprF.data ++ [')']))) := by
  show (((("E (" ++ l.reprF) ++ ") U (") ++ r.reprF) ++ ")").data = _
  rw [string_data_append, string_data_append, string_data_append, string_data_append]
  rw [show ("E (" : String).data = ['E', ' ', '('] from rfl,
    show (") U (" : String).data = [')', ' ', 'U', ' ', '('] from rfl,
    show (")" : String).data = [')'] from rfl]
  rw [List.append_assoc, List.append_assoc, List.append_assoc]
  rfl

lemma data_aw (l r : Formula) :
    (aw l r).reprF.data =
      'A' :: ' ' :: '(' :: (l.reprF.data ++
        (')' :: ' ' :: 'W' :: ' ' :: '(' :: (r.reprF.data ++ [')']))) := by
  show (((("A (" ++ l.reprF) ++ ") W (") ++ r.reprF) ++ ")").data = _
  rw [string_data_append, string_data_append, string_data_append, string_data_append]
  rw [show ("A (" : String).data = ['A', ' ', '('] from rfl,
    show (") W (" : String).data = [')', ' ', 'W', ' ', '('] from rfl,
    show (")" : String).data = [')'] from rfl]
  rw [List.append_assoc, List.append_assoc, List.append_assoc]
  rfl

lemma data_ew (l r : Formula) :
    (ew l r).reprF.data =
      'E' :: ' ' :: '(' :: (l.reprF.data ++
        (')' :: ' ' :: 'W' :: ' ' :: '(' :: (r.reprF.data ++ [')']))) := by
  show (((("E (" ++ l.reprF) ++ ") W (") ++ r.reprF) ++ ")").data = _
  rw [string_data_append, string_data_append, string_data_append, string_data_append]
  rw [show ("E (" : String).data = ['E', ' ', '('] from rfl,
    show (") W (" : String).data = [')', ' ', 'W', ' ', '('] from rfl,
    show (")" : String).data = [')'] from rfl]
  rw [List.append_assoc, List.append_assoc, List.append_assoc]
  rfl

lemma string_ne_of_data_ne (a b : String) (h : a.data ≠ b.data) : a ≠ b := by
  intro he; exact h (he ▸ rfl)

lemma reprF_ag_ne_au (z l r : Formula) : (ag z).reprF ≠ (au l r).reprF := by
  apply string_ne_of_data_ne
  rw [data_ag, data_au]
  intro h
  injection h with h1 h2
  injection h2 with h3 h4
  exact absurd h3 (by decide)

lemma reprF_eg_ne_eu (z l r : Formula) : (eg z).reprF ≠ (eu l r).reprF := by
  apply string_ne_of_data_ne
  rw [data_eg, data_eu]
  intro h
  injection h with h1 h2
  injection h2 with h3 h4
  exact absurd h3 (by decide)

lemma reprF_aw_ne_ag (l r z : Formula) : (aw l r).reprF ≠ (ag z).reprF := by
  apply string_ne_of_data_ne
  rw [data_aw, data_ag]
  intro h
  injection h with h1 h2
  injection h2 with h3 h4
  exact absurd h3 (by decide)

lemma reprF_ew_ne_eg (l r z : Formula) : (ew l r).reprF ≠ (eg z).reprF := by
  apply string_ne_of_data_ne
  rw [data_ew, data_eg]
  intro h
  injection h with h1 h2
  injection h2 with h3 h4
  exact absurd h3 (by decide)

lemma reprF_aw_ne_au (l r : Formula) : (aw l r).reprF ≠ (au l r).reprF := by
  apply string_ne_of_data_ne
  rw [data_aw, data_au]
  intro h
  injection h with e1 h
  injection h with e2 h
  injection h with e3 h
  have h4 := List.append_cancel_left h
  injection h4 with e4 h4
  injection h4 with e5 h4
  injection h4 with e6 h4
  exact absurd e6 (by decide)

lemma reprF_ew_ne_eu (l r : Formula) : (ew l r).reprF ≠ (eu l r).reprF := by
  apply string_ne_of_data_ne
  rw [data_ew, data_eu]
  intro h
  injection h with e1 h
  injection h with e2 h
  injection h with e3 h
  have h4 := List.append_cancel_left h
  injection h4 with e4 h4
  injection h4 with e5 h4
  injection h4 with e6 h4
  exact absurd e6 (by decide)

lemma reprF_aw_ne_left (l r : Formula) : (aw l r).reprF ≠ l.reprF := by
  apply string_ne_of_length_ne
  rw [show (aw l r).reprF = "A (" ++ l.reprF ++ ") W (" ++ r.reprF ++ ")" from rfl,
    length_binkey _ _ (by decide) (by decide)]
  omega

lemma reprF_ew_ne_left (l r : Formula) : (ew l r).reprF ≠ l.reprF := by
  apply string_ne_of_length_ne
  rw [show (ew l r).reprF = "E (" ++ l.reprF ++ ") W (" ++ r.reprF ++ ")" from rfl,
    length_binkey _ _ (by decide) (by decide)]
  omega

end Formula

/-- Insertion into a sorted list of integers. -/
def insertSorted (x : ℤ) : List ℤ → List ℤ
  | [] => [x]
  | y :: ys => if x ≤ y then x :: y :: ys else y :: insertSorted x ys

/-- Insertion sort; on a duplicate-free list this is exactly Python's
`sorted` of the corresponding set. -/
def sortInts (l : List ℤ) : List ℤ := l.foldr insertSorted []

/-- Python's `sorted(set(a).intersection(b))`: the sorted duplicate-free
list of the common elements. -/
def sortedInter (a b : List ℤ) : List ℤ :=
  sortInts ((a.filter (fun x => decide (x ∈ b))).dedup)

/-- Python's `sorted(set(a).union(b))`. -/
def sortedUnion (a b : List ℤ) : List ℤ := sortInts ((a ++ b).dedup)

/-- `list(range(max(k, 0), max_val + 1))` as a set of integers. -/
def validValuesGe (k : ℤ) (maxv : ℕ) : List ℤ :=
  ((List.range (maxv + 1)).map Int.ofNat).filter (fun n => decide (max k 0 ≤ n))

/-- `list(range(0, min(k, max_val) + 1))` as a set of integers. -/
def validValuesLe (k : ℤ) (maxv : ℕ) : List ℤ :=
  ((List.range (maxv + 1)).map Int.ofNat).filter (fun n => decide (n ≤ min k maxv))

namespace Formula

/-- `yield_dov`.  A domain of validity is a list of per-axis value lists; the
ordered dict `max_activities` is a list of (name, bound) pairs.  Failures
(`ValueError` from `.index`, the `raise ValueError` for an unsupported
operator, `NotImplementedError` on `Negation`, and the absence of the method
on state-level classes) are modelled as `Except.error`.  `List.set` silently
ignores an out-of-range index; the caller's contract (`dov` and
`max_activities` have the same length) makes that case unreachable. -/
def yield_dov : Formula → List (List ℤ) → List (String × ℕ) → Except String (List (List ℤ))
  | atomicProp v op k, dov, maxes =>
    match List.findIdx? (fun p => p.1 == v) maxes, maxes.lookup v with
    | some idx, some maxv =>
      if op == ">=" then
        .ok (dov.set idx (sortedInter (dov.getD idx []) (validValuesGe k maxv)))
      else if op == "<=" then
        .ok (dov.set idx (sortedInter (dov.getD idx []) (validValuesLe k maxv)))
      else
        .error ("Unsupported operator: " ++ op)
    | _, _ => .error ("variable not in max_activities: " ++ v)
  | negation _, _, _ => .error "Negation must be eliminated before calling yield_dov."
  | union l r, dov, maxes => do
    let ld ← yield_dov l dov maxes
    let rd ← yield_dov r dov maxes
    .ok ((List.range dov.length).map (fun i => sortedUnion (ld.getD i []) (rd.getD i [])))
  | inter l r, dov, maxes => do
    let ld ← yield_dov l dov maxes
    let rd ← yield_dov r dov maxes
    .ok ((List.range dov.length).map (fun i => sortedInter (ld.getD i []) (rd.getD i [])))
  | _, _, _ => .error "yield_dov is only defined on atomic-level formulae"

/-- `get_subformulae`: post-order enumeration.  Atomic-level formulae and
`Boolean` return `[self]`; `Negation` raises. -/
def get_subformulae : Formula → Except String (List Formula)
  | atomicProp v op k => .ok [atomicProp v op k]
  | negation _ => .error "Negation must be eliminated before calling get_subformulae."
  | union l r => .ok [union l r]
  | inter l r => .ok [inter l r]
  | boolean b => .ok [boolean b]
  | conj l r => do
    let sl ← get_subformulae l
    let sr ← get_subformulae r
    .ok (sl ++ sr ++ [conj l r])
  | disj l r => do
    let sl ← get_subformulae l
    let sr ← get_subformulae r
    .ok (sl ++ sr ++ [disj l r])
  | ag z => do let sz ← get_subformulae z; .ok (sz ++ [ag z])
  | eg z => do let sz ← get_subformulae z; .ok (sz ++ [eg z])
  | af z => do let sz ← get_subformulae z; .ok (sz ++ [af z])
  | ef z => do let sz ← get_subformulae z; .ok (sz ++ [ef z])
  | ax z => do let sz ← get_subformulae z; .ok (sz ++ [ax z])
  | ex z => do let sz ← get_subformulae z; .ok (sz ++ [ex z])
  | au l r => do
    let sl ← get_subformulae l
    let sr ← get_subformulae r
    .ok (sl ++ sr ++ [au l r])
  | eu l r => do
    let sl ← get_subformulae l
    let sr ← get_subformulae r
    .ok (sl ++ sr ++ [eu l r])
  | aw l r => do
    let sl ← get_subformulae l
    let sr ← get_subformulae r
    .ok (sl ++ sr ++ [aw l r])
  | ew l r => do
    let sl ← get_subformulae l
    let sr ← get_subformulae r
    .ok (sl ++ sr ++ [ew l r])

/-- The `negate()` methods.  `AtomicProposition.negate` silently returns
`None` in Python for an operator other than `>=`/`<=`; that case (and the
state-level classes, which have no `negate`) is modelled as the identity and
is unreachable for well-formed formulae. -/
def negateF : Formula → Formula
  | atomicProp v op k =>
    if op == ">=" then atomicProp v "<=" (k - 1)
    else if op == "<=" then atomicProp v ">=" (k + 1)
    else atomicProp v op k
  | negation z => negateF z
  | union l r => inter (negation l) (negation r)
  | inter l r => union (negation l) (negation r)
  | φ => φ

/-- Termination measure for `eliminate_negation`; `negation` nodes count
double because `negate()` can duplicate them one level down. -/
def fsize : Formula → ℕ
  | atomicProp _ _ _ => 1
  | boolean _ => 1
  | negation z => 2 * fsize z + 1
  | union l r => fsize l + fsize r + 1
  | inter l r => fsize l + fsize r + 1
  | conj l r => fsize l + fsize r + 1
  | disj l r => fsize l + fsize r + 1
  | au l r => fsize l + fsize r + 1
  | eu l r => fsize l + fsize r + 1
  | aw l r => fsize l + fsize r + 1
  | ew l r => fsize l + fsize r + 1
  | ag z => fsize z + 1
  | eg z => fsize z + 1
  | af z => fsize z + 1
  | ef z => fsize z + 1
  | ax z => fsize z + 1
  | ex z => fsize z + 1

lemma fsize_negateF (z : Formula) : fsize (negateF z) ≤ 2 * fsize z + 1 := by
  induction z with
  | atomicProp v op k =>
    simp only [negateF]
    split
    · simp [fsize]
    · split
      · simp [fsize]
      · simp [fsize]
  | negation w ih => exact le_trans ih (by simp [fsize]; omega)
  | union l r ihl ihr => simp [negateF, fsize]; omega
  | inter l r ihl ihr => simp [negateF, fsize]; omega
  | _ => (simp only [negateF, fsize]; omega)

/-- The in-place rewriting `self.left = self.left.negate()` that every parent
performs when its child is a `Negation` — `Negation.negate()` returns
`self.operand.negate()`. -/
def pushNeg : Formula → Formula
  | negation z => negateF z
  | φ => φ

lemma fsize_pushNeg (φ : Formula) : fsize (pushNeg φ) ≤ fsize φ := by
  cases φ with
  | negation z => exact le_trans (fsize_negateF z) (le_of_eq (by simp [fsize]))
  | _ => simp [pushNeg]

/-- `eliminate_negation`.  `Negation` strips double negations but returns
itself when its operand is not a `Negation`; every other node first replaces
a `Negation` child by `child.negate()` and then recurses. -/
def eliminate_negation : Formula → Formula
  | atomicProp v op k => atomicProp v op k
  | boolean b => boolean b
  | negation (negation w) => eliminate_negation w
  | negation z => negation z
  | union l r => union (eliminate_negation (pushNeg l)) (eliminate_negation (pushNeg r))
  | inter l r => inter (eliminate_negation (pushNeg l)) (eliminate_negation (pushNeg r))
  | conj l r => conj (eliminate_negation (pushNeg l)) (eliminate_negation (pushNeg r))
  | disj l r => disj (eliminate_negation (pushNeg l)) (eliminate_negation (pushNeg r))
  | au l r => au (eliminate_negation (pushNeg l)) (eliminate_negation (pushNeg r))
  | eu l r => eu (eliminate_negation (pushNeg l)) (eliminate_negation (pushNeg r))
  | aw l r => aw (eliminate_negation (pushNeg l)) (eliminate_negation (pushNeg r))
  | ew l r => ew (eliminate_negation (pushNeg l)) (eliminate_negation (pushNeg r))
  | ag z => ag (eliminate_negation (pushNeg z))
  | eg z => eg (eliminate_negation (pushNeg z))
  | af z => af (eliminate_negation (pushNeg z))
  | ef z => ef (eliminate_negation (pushNeg z))
  | ax z => ax (eliminate_negation (pushNeg z))
  | ex z => ex (eliminate_negation (pushNeg z))
  termination_by φ => fsize φ
  decreasing_by
    all_goals simp only [fsize]
    all_goals first
      | omega
      | exact Nat.lt_succ_of_le (fsize_pushNeg _)
      | exact Nat.lt_succ_of_le (le_trans (fsize_pushNeg _) (Nat.le_add_right _ _))
      | exact Nat.lt_succ_of_le (le_trans (fsize_pushNeg _) (Nat.le_add_left _ _))

/-- Whether any `Negation` node occurs anywhere in the tree. -/
def hasNegation : Formula → Bool
  | atomicProp _ _ _ => false
  | boolean _ => false
  | negation _ => true
  | union l r => hasNegation l || hasNegation r
  | inter l r => hasNegation l || hasNegation r
  | conj l r => hasNegation l || hasNegation r
  | disj l r => hasNegation l || hasNegation r
  | au l r => hasNegation l || hasNegation r
  | eu l r => hasNegation l || hasNegation r
  | aw l r => hasNegation l || hasNegation r
  | ew l r => hasNegation l || hasNegation r
  | ag z => hasNegation z
  | eg z => hasNegation z
  | af z => hasNegation z
  | ef z => hasNegation z
  | ax z => hasNegation z
  | ex z => hasNegation z

end Formula

/-- Modelled from the spec: §4.2 step 1 of the satisfaction kernel
(`src/satisfaction_degree.py`, not among the provided sources).  The signed
per-axis deviation: `0` if the coordinate lies in the axis set, otherwise the
negated shortest distance to the nearest member.  An empty axis set is left
unconstrained by the spec; it is given deviation `0` here and no claim
exercises it. -/
def axisDelta (axis : List ℤ) (v : ℤ) : ℚ :=
  if v ∈ axis then 0 else -(listMin (axis.map (fun a => ((v - a).natAbs : ℚ))))

/-- Modelled from the spec: §4.2 step 2, the per-axis weight `1 / max_v`
(`1` when the bound is `0`). -/
def axisWeight (m : ℕ) : ℚ := if m = 0 then 1 else 1 / m

/-- Modelled from the spec: §4.2 steps 1–2, the pure kernel function
`weighted_signed_distance(dov, state, variables)`:
`wsd(s) = Σᵢ wᵢ · δᵢ`.  Only the variable bounds matter, so the ordered dict
is passed as its list of values. -/
def weighted_signed_distance (dov : List (List ℤ)) (state : State) (maxes : List ℕ) : ℚ :=
  ((dov.zip (state.zip maxes)).map (fun p => axisWeight p.2.2 * axisDelta p.1 p.2.1)).sum

/-- All states of the ambient box `0..max_v` per axis. -/
def boxStates : List ℕ → List State
  | [] => [[]]
  | m :: ms => ((List.range (m + 1)).map Int.ofNat).flatMap
      (fun v => (boxStates ms).map (fun s => v :: s))

/-- Modelled from the spec: the value component of the pure kernel function
`find_extreme_state(dov, max_values, positive_side)` (§4.2 step 3): the
extreme weighted signed distance over the ambient box on the requested side,
i.e. "the maximum magnitude attainable in the model". -/
def find_extreme_value (dov : List (List ℤ)) (maxes : List ℕ) (positiveSide : Bool) : ℚ :=
  let vals := (boxStates maxes).map (fun s => weighted_signed_distance dov s maxes)
  if positiveSide then |listMax vals| else |listMin vals|

/-- The score `AtomicFormula.evaluate` writes for one state (source line 96):
`wsd / ext_wsd if ext_wsd > 0 else 1`, with `positive_side = (wsd >= 0)`. -/
def atomicScore (dov : List (List ℤ)) (maxes : List ℕ) (s : State) : ℚ :=
  let w := weighted_signed_distance dov s maxes
  let e := find_extreme_value dov maxes (decide (0 ≤ w))
  if 0 < e then w / e else 1

lemma find_extreme_value_nonneg (dov : List (List ℤ)) (maxes : List ℕ) (b : Bool) :
    0 ≤ find_extreme_value dov maxes b := by
  unfold find_extreme_value
  split <;> exact abs_nonneg _

lemma abs_wsd_le_ext (dov : List (List ℤ)) (maxes : List ℕ) (s : State)
    (hs : s ∈ boxStates maxes) :
    |weighted_signed_distance dov s maxes| ≤
      find_extreme_value dov maxes (decide (0 ≤ weighted_signed_distance dov s maxes)) := by
  set w := weighted_signed_distance dov s maxes with hw
  have hmem : w ∈ (boxStates maxes).map (fun t => weighted_signed_distance dov t maxes) :=
    List.mem_map.mpr ⟨s, hs, rfl⟩
  have htrue : find_extreme_value dov maxes true =
      |listMax ((boxStates maxes).map (fun t => weighted_signed_distance dov t maxes))| := rfl
  have hfalse : find_extreme_value dov maxes false =
      |listMin ((boxStates maxes).map (fun t => weighted_signed_distance dov t maxes))| := rfl
  by_cases h : 0 ≤ w
  · rw [show decide (0 ≤ w) = true from decide_eq_true h, htrue]
    calc |w| = w := abs_of_nonneg h
    _ ≤ listMax _ := le_listMax_of_mem _ _ hmem
    _ ≤ |listMax _| := le_abs_self _
  · rw [show decide (0 ≤ w) = false from decide_eq_false h, hfalse]
    push_neg at h
    calc |w| = -w := abs_of_neg h
    _ ≤ -(listMin _) := neg_le_neg (listMin_le_of_mem _ _ hmem)
    _ ≤ |listMin _| := neg_le_abs _

/-- Scores an atomic leaf writes are always in `[-1, 1]` (for states inside
the ambient box). -/
lemma atomicScore_range (dov : List (List ℤ)) (maxes : List ℕ) (s : State)
    (hs : s ∈ boxStates maxes) :
    -1 ≤ atomicScore dov maxes s ∧ atomicScore dov maxes s ≤ 1 := by
  unfold atomicScore
  set w := weighted_signed_distance dov s maxes with hw
  set e := find_extreme_value dov maxes (decide (0 ≤ w)) with he
  by_cases hpos : 0 < e
  · rw [if_pos hpos]
    have habs : |w / e| ≤ 1 := by
      rw [abs_div, abs_of_pos hpos]
      rw [div_le_one hpos]
      exact abs_wsd_le_ext dov maxes s hs
    exact ⟨neg_le_of_abs_le habs, le_of_abs_le habs⟩
  · rw [if_neg hpos]
    norm_num

/-- The Kripke-graph interface consumed by the evaluator (§6): the ordered
variable bounds (`ks.stg.variables`), the state list (`ks.stg.states`) and
the graph's successor/predecessor functions. -/
structure KS where
  vars : List (String × ℕ)
  states : List State
  succs : State → List State
  preds : State → List State

/-- The result table `formulae_evaluations`: `state → repr-key → score`.
`none` models both the `None` sentinel and an absent entry.  Where the source
reads an entry and compares or divides it (which would raise on `None`),
the model reads `getQ` and the relevant theorems carry the presence
precondition. -/
abbrev KTable := State → String → Option ℚ

def getQ (T : KTable) (s : State) (k : String) : ℚ := (T s k).getD 0

def updT (T : KTable) (s : State) (k : String) (v : ℚ) : KTable :=
  fun s' k' => if s' = s ∧ k' = k then some v else T s' k'

/-- A `for state in ks.stg.states:` loop writing `some (f s)` under `key`. -/
def writeAll (G : KS) (key : String) (f : State → ℚ) (T : KTable) : KTable :=
  fun s k => if k = key ∧ s ∈ G.states then some (f s) else T s k

/-- `domains = [list(range(max_value + 1)) for max_value in ks.stg.variables.values()]`. -/
def ambientDov (G : KS) : List (List ℤ) :=
  G.vars.map (fun p => (List.range (p.2 + 1)).map Int.ofNat)

def maxesOf (G : KS) : List ℕ := G.vars.map Prod.snd

/-- One worklist configuration: the to-do set `queue` and the shared table. -/
structure KConfig where
  queue : Finset State
  table : KTable

/-- What distinguishes the worklist loops of the six fixed-point operators:
their own key, how they compute a candidate value at a popped state, and
when they overwrite the current entry. -/
structure WLParams where
  selfKey : String
  compute : KTable → State → ℚ
  shouldUpdate : ℚ → Option ℚ → Bool

/-- One iteration of the worklist body at popped state `s`:
pop, compute, conditionally write and enqueue all predecessors. -/
def wlStepAt (G : KS) (P : WLParams) (c : KConfig) (s : State) : KConfig :=
  let v := P.compute c.table s
  if P.shouldUpdate v (c.table s P.selfKey) then
    ⟨c.queue.erase s ∪ (G.preds s).toFinset, updT c.table s P.selfKey v⟩
  else
    ⟨c.queue.erase s, c.table⟩

/-- The worklist transition relation: `queue.pop()` returns an arbitrary
member, so any `s ∈ queue` may be processed next. -/
def WLStep (G : KS) (P : WLParams) (c c' : KConfig) : Prop :=
  ∃ s, s ∈ c.queue ∧ c' = wlStepAt G P c s

/-- `queue = set(ks.stg.states)` together with the current table. -/
def startConfig (G : KS) (T : KTable) : KConfig := ⟨G.states.toFinset, T⟩

/-- A complete worklist run: from the all-states queue to an empty queue. -/
def runsTo (G : KS) (P : WLParams) (T T' : KTable) : Prop :=
  ∃ c', Relation.ReflTransGen (WLStep G P) (startConfig G T) c' ∧
    c'.queue = ∅ ∧ T' = c'.table

/-- `cur is None or better v cur` — the update guards of AG/EG/AF/EF. -/
def unaryShould (better : ℚ → ℚ → Bool) : ℚ → Option ℚ → Bool
  | _, none => true
  | v, some w => better v w

/-- min/max over the successors' operand scores. -/
def unaryCompute (G : KS) (opKey : String) (agg : List ℚ → ℚ) : KTable → State → ℚ :=
  fun T s => agg ((G.succs s).map (fun t => getQ T t opKey))

/-- `AG.evaluate` body: min over successors, overwrite when smaller. -/
def agParams (G : KS) (opKey selfKey : String) : WLParams :=
  ⟨selfKey, unaryCompute G opKey listMin, unaryShould (fun v w => decide (v < w))⟩

/-- `EG.evaluate` body: max over successors, overwrite when smaller. -/
def egParams (G : KS) (opKey selfKey : String) : WLParams :=
  ⟨selfKey, unaryCompute G opKey listMax, unaryShould (fun v w => decide (v < w))⟩

/-- `AF.evaluate` body: min over successors, overwrite when greater. -/
def afParams (G : KS) (opKey selfKey : String) : WLParams :=
  ⟨selfKey, unaryCompute G opKey listMin, unaryShould (fun v w => decide (w < v))⟩

/-- `EF.evaluate` body: max over successors, overwrite when greater. -/
def efParams (G : KS) (opKey selfKey : String) : WLParams :=
  ⟨selfKey, unaryCompute G opKey listMax, unaryShould (fun v w => decide (w < v))⟩

/-- `AU`/`EU` candidate: `min(score(s, left), agg over successors of the
operator's own entries)`. -/
def untilCompute (G : KS) (leftKey selfKey : String) (agg : List ℚ → ℚ) :
    KTable → State → ℚ :=
  fun T s => min (getQ T s leftKey) (agg ((G.succs s).map (fun t => getQ T t selfKey)))

/-- `if extend > until_self:` — strict improvement. -/
def untilShould : ℚ → Option ℚ → Bool := fun v cur => decide (cur.getD 0 < v)

def auParams (G : KS) (leftKey selfKey : String) : WLParams :=
  ⟨selfKey, untilCompute G leftKey selfKey listMin, untilShould⟩

def euParams (G : KS) (leftKey selfKey : String) : WLParams :=
  ⟨selfKey, untilCompute G leftKey selfKey listMax, untilShould⟩

/-- The initialisation loop of `AU`/`EU`: copy the right operand's entry into
the operator's own key at every state. -/
def untilInit (G : KS) (selfKey rightKey : String) (T : KTable) : KTable :=
  fun s k => if k = selfKey ∧ s ∈ G.states then T s rightKey else T s k

/-- The sentinel loop of `AW`/`EW`: set the embedded `G`-operator's key to
`None` at every state. -/
def resetKey (G : KS) (key : String) (T : KTable) : KTable :=
  fun s k => if k = key ∧ s ∈ G.states then none else T s k

/-- `AtomicFormula.evaluate`: yield the DoV of the leaf over the ambient box,
then score every state.  A `yield_dov` failure is a raise: no transition. -/
def atomicEvalRel (G : KS) (φ : Formula) (T T' : KTable) : Prop :=
  ∃ dov, φ.yield_dov (ambientDov G) G.vars = .ok dov ∧
    T' = writeAll G φ.reprF (fun s => atomicScore dov (maxesOf G) s) T

/-- The `evaluate` methods of all formula classes, as a big-step relation on
result tables.  Worklist operators relate `T` to the table of any terminated
run; the other operators are deterministic single passes. -/
def evaluate (G : KS) : Formula → KTable → KTable → Prop
  | Formula.atomicProp v op k, T, T' => atomicEvalRel G (Formula.atomicProp v op k) T T'
  | Formula.negation z, T, T' => atomicEvalRel G (Formula.negation z) T T'
  | Formula.union l r, T, T' => atomicEvalRel G (Formula.union l r) T T'
  | Formula.inter l r, T, T' => atomicEvalRel G (Formula.inter l r) T T'
  | Formula.boolean b, T, T' =>
    T' = writeAll G (Formula.boolean b).reprF (fun _ => if b then 1 else -1) T
  | Formula.conj l r, T, T' =>
    T' = writeAll G (Formula.conj l r).reprF
      (fun s => min (getQ T s l.reprF) (getQ T s r.reprF)) T
  | Formula.disj l r, T, T' =>
    T' = writeAll G (Formula.disj l r).reprF
      (fun s => max (getQ T s l.reprF) (getQ T s r.reprF)) T
  | Formula.ax z, T, T' =>
    T' = writeAll G (Formula.ax z).reprF
      (fun s => listMin ((G.succs s).map (fun t => getQ T t z.reprF))) T
  | Formula.ex z, T, T' =>
    T' = writeAll G (Formula.ex z).reprF
      (fun s => listMax ((G.succs s).map (fun t => getQ T t z.reprF))) T
  | Formula.ag z, T, T' => runsTo G (agParams G z.reprF (Formula.ag z).reprF) T T'
  | Formula.eg z, T, T' => runsTo G (egParams G z.reprF (Formula.eg z).reprF) T T'
  | Formula.af z, T, T' => runsTo G (afParams G z.reprF (Formula.af z).reprF) T T'
  | Formula.ef z, T, T' => runsTo G (efParams G z.reprF (Formula.ef z).reprF) T T'
  | Formula.au l r, T, T' =>
    runsTo G (auParams G l.reprF (Formula.au l r).reprF)
      (untilInit G (Formula.au l r).reprF r.reprF T) T'
  | Formula.eu l r, T, T' =>
    runsTo G (euParams G l.reprF (Formula.eu l r).reprF)
      (untilInit G (Formula.eu l r).reprF r.reprF T) T'
  | Formula.aw l r, T, T' => ∃ T₂ T₃,
    runsTo G (agParams G l.reprF (Formula.ag l).reprF)
      (resetKey G (Formula.ag l).reprF T) T₂ ∧
    runsTo G (auParams G l.reprF (Formula.au l r).reprF)
      (untilInit G (Formula.au l r).reprF r.reprF T₂) T₃ ∧
    T' = writeAll G (Formula.aw l r).reprF
      (fun s => max (getQ T₃ s (Formula.ag l).reprF) (getQ T₃ s (Formula.au l r).reprF)) T₃
  | Formula.ew l r, T, T' => ∃ T₂ T₃,
    runsTo G (egParams G l.reprF (Formula.eg l).reprF)
      (resetKey G (Formula.eg l).reprF T) T₂ ∧
    runsTo G (euParams G l.reprF (Formula.eu l r).reprF)
      (untilInit G (Formula.eu l r).reprF r.reprF T₂) T₃ ∧
    T' = writeAll G (Formula.ew l r).reprF
      (fun s => max (getQ T₃ s (Formula.eg l).reprF) (getQ T₃ s (Formula.eu l r).reprF)) T₃

/-- `min(score(s, left), agg of own entries over successors)` as a function
of an abstract score assignment: the fixed-point functional of `AU`/`EU`. -/
def untilExt (G : KS) (lv : State → ℚ) (agg : List ℚ → ℚ) (F : State → ℚ) (s : State) : ℚ :=
  min (lv s) (agg ((G.succs s).map F))

/-- The scores currently stored under `key` (`0` for an unset entry). -/
def piT (T : KTable) (key : String) (s : State) : ℚ := getQ T s key

/-- Modelled from the spec: the top-level driver (§6) normalises the root,
enumerates subformulae in dependency order and evaluates them one after the
other, threading the shared result table. -/
def EvalSeq (G : KS) : List Formula → KTable → KTable → Prop
  | [], T, T' => T' = T
  | φ :: l, T, T' => ∃ Tm, evaluate G φ T Tm ∧ EvalSeq G l Tm T'

lemma map_congr_mem {α β : Type} (l : List α) (f g : α → β) (h : ∀ x ∈ l, f x = g x) :
    l.map f = l.map g := by
  induction l with
  | nil => rfl
  | cons y ys ih =>
    rw [List.map_cons, List.map_cons, h y (List.mem_cons_self y ys),
      ih (fun x hx => h x (List.mem_cons_of_mem y hx))]

lemma updT_eval (T : KTable) (s : State) (k : String) (v : ℚ) (t : State) (k' : String) :
    updT T s k v t k' = if t = s ∧ k' = k then some v else T t k' := rfl

lemma updT_same (T : KTable) (s : State) (k : String) (v : ℚ) : updT T s k v s k = some v := by
  rw [updT_eval, if_pos ⟨rfl, rfl⟩]

lemma updT_ne_state (T : KTable) (s : State) (k : String) (v : ℚ) (t : State) (k' : String)
    (h : t ≠ s) : updT T s k v t k' = T t k' := by
  rw [updT_eval, if_neg (fun hc => h hc.1)]

lemma updT_ne_key (T : KTable) (s : State) (k : String) (v : ℚ) (t : State) (k' : String)
    (h : k' ≠ k) : updT T s k v t k' = T t k' := by
  rw [updT_eval, if_neg (fun hc => h hc.2)]

lemma wlStepAt_pos (G : KS) (P : WLParams) (c : KConfig) (s : State)
    (h : P.shouldUpdate (P.compute c.table s) (c.table s P.selfKey) = true) :
    wlStepAt G P c s =
      ⟨c.queue.erase s ∪ (G.preds s).toFinset,
        updT c.table s P.selfKey (P.compute c.table s)⟩ := by
  unfold wlStepAt
  rw [if_pos h]

lemma wlStepAt_neg (G : KS) (P : WLParams) (c : KConfig) (s : State)
    (h : P.shouldUpdate (P.compute c.table s) (c.table s P.selfKey) = false) :
    wlStepAt G P c s = ⟨c.queue.erase s, c.table⟩ := by
  unfold wlStepAt
  rw [if_neg (by rw [h]; exact Bool.false_ne_true)]

lemma wlStepAt_table_ne (G : KS) (P : WLParams) (c : KConfig) (s : State)
    (t : State) (k : String) (hk : k ≠ P.selfKey) :
    (wlStepAt G P c s).table t k = c.table t k := by
  cases h : P.shouldUpdate (P.compute c.table s) (c.table s P.selfKey) with
  | true => rw [wlStepAt_pos G P c s h]; exact updT_ne_key _ _ _ _ _ _ hk
  | false => rw [wlStepAt_neg G P c s h]

/-- Entries under any key other than the operator's own are never touched by
a worklist run. -/
lemma wlRun_table_ne (G : KS) (P : WLParams) {c c' : KConfig}
    (h : Relation.ReflTransGen (WLStep G P) c c') (t : State) (k : String)
    (hk : k ≠ P.selfKey) : c'.table t k = c.table t k := by
  induction h with
  | refl => rfl
  | tail _ hbc ih =>
    obtain ⟨s, _, rfl⟩ := hbc
    rw [wlStepAt_table_ne _ _ _ _ _ _ hk]
    exact ih

/-- Master invariant of the four unary worklists (AG/EG/AF/EF).  The
candidate value at a state depends only on the operand's entries, which the
run never touches, so the entry of a processed state is exactly the one-step
value computed from the initial table. -/
lemma unary_run_inv (G : KS) (opKey selfKey : String) (hk : opKey ≠ selfKey)
    (agg : List ℚ → ℚ) (better : ℚ → ℚ → Bool) (T₀ : KTable)
    (hnone : ∀ s ∈ G.states, T₀ s selfKey = none)
    (hpredsub : ∀ u t, t ∈ G.preds u → t ∈ G.states)
    {c' : KConfig}
    (hrun : Relation.ReflTransGen
      (WLStep G ⟨selfKey, unaryCompute G opKey agg, unaryShould better⟩)
      (startConfig G T₀) c') :
    (∀ s k, k ≠ selfKey → c'.table s k = T₀ s k) ∧
    c'.queue ⊆ G.states.toFinset ∧
    (∀ s, s ∉ G.states → c'.table s selfKey = T₀ s selfKey) ∧
    (∀ s ∈ G.states, c'.table s selfKey = none ∨
      c'.table s selfKey = some (unaryCompute G opKey agg T₀ s)) ∧
    (∀ s ∈ G.states, s ∉ c'.queue →
      c'.table s selfKey = some (unaryCompute G opKey agg T₀ s)) := by
  induction hrun with
  | refl =>
    refine ⟨fun s k _ => rfl, Finset.Subset.refl _, fun s _ => rfl,
      fun s hs => Or.inl (hnone s hs), fun s hs hq => absurd (List.mem_toFinset.mpr hs) hq⟩
  | tail hab hbc ih =>
    obtain ⟨ih1, ih0, ih2, ih3, ih4⟩ := ih
    obtain ⟨u, hu, rfl⟩ := hbc
    rename_i b
    have humem : u ∈ G.states := List.mem_toFinset.mp (ih0 hu)
    have hcomp : unaryCompute G opKey agg b.table u = unaryCompute G opKey agg T₀ u := by
      unfold unaryCompute
      rw [map_congr_mem _ _ (fun t => getQ T₀ t opKey)
        (fun t _ => by unfold getQ; rw [ih1 t opKey hk])]
    cases hupd : unaryShould better (unaryCompute G opKey agg b.table u) (b.table u selfKey) with
    | true =>
      rw [wlStepAt_pos G _ b u hupd]
      dsimp only
      refine ⟨?_, ?_, ?_, ?_, ?_⟩
      · intro s k hks
        exact (updT_ne_key _ _ _ _ _ _ hks).trans (ih1 s k hks)
      · intro t ht
        rcases Finset.mem_union.mp ht with h | h
        · exact ih0 (Finset.mem_of_mem_erase h)
        · exact List.mem_toFinset.mpr (hpredsub u t (List.mem_toFinset.mp h))
      · intro s hs
        have hsu : s ≠ u := fun he => hs (by rw [he]; exact humem)
        rw [updT_ne_state _ _ _ _ _ _ hsu]
        exact ih2 s hs
      · intro s hs
        by_cases hsu : s = u
        · subst hsu
          rw [updT_same, hcomp]
          exact Or.inr rfl
        · rw [updT_ne_state _ _ _ _ _ _ hsu]
          exact ih3 s hs
      · intro s hs hq
        by_cases hsu : s = u
        · subst hsu
          rw [updT_same, hcomp]
        · rw [updT_ne_state _ _ _ _ _ _ hsu]
          have hnq : s ∉ b.queue := fun hin =>
            hq (Finset.mem_union_left _ (Finset.mem_erase.mpr ⟨hsu, hin⟩))
          exact ih4 s hs hnq
    | false =>
      rw [wlStepAt_neg G _ b u hupd]
      dsimp only
      refine ⟨ih1, fun t ht => ih0 (Finset.mem_of_mem_erase ht), ih2, ih3, ?_⟩
      · intro s hs hq
        by_cases hsu : s = u
        · subst hsu
          rcases ih3 s hs with h | h
          · rw [hcomp] at hupd
            rw [h] at hupd
            exact absurd hupd (by simp [unaryShould])
          · exact h
        · exact ih4 s hs (fun hin => hq (Finset.mem_erase.mpr ⟨hsu, hin⟩))

/-- The table a terminated unary worklist run produces: the one-step value at
every state, everything else untouched. -/
lemma unary_runsTo (G : KS) (opKey selfKey : String) (hk : opKey ≠ selfKey)
    (agg : List ℚ → ℚ) (better : ℚ → ℚ → Bool) (T₀ T' : KTable)
    (hnone : ∀ s ∈ G.states, T₀ s selfKey = none)
    (hpredsub : ∀ u t, t ∈ G.preds u → t ∈ G.states)
    (h : runsTo G ⟨selfKey, unaryCompute G opKey agg, unaryShould better⟩ T₀ T') :
    (∀ s ∈ G.states, T' s selfKey = some (unaryCompute G opKey agg T₀ s)) ∧
    (∀ s, s ∉ G.states → T' s selfKey = T₀ s selfKey) ∧
    (∀ s k, k ≠ selfKey → T' s k = T₀ s k) := by
  obtain ⟨c', hrun, hq, rfl⟩ := h
  obtain ⟨h1, _, h2, _, h4⟩ := unary_run_inv G opKey selfKey hk agg better T₀ hnone hpredsub hrun
  exact ⟨fun s hs => h4 s hs (by rw [hq]; exact Finset.not_mem_empty s),
    h2, h1⟩

/-- Any two terminated runs of a unary worklist from the same initial table
produce the same table. -/
lemma unary_confluent (G : KS) (opKey selfKey : String) (hk : opKey ≠ selfKey)
    (agg : List ℚ → ℚ) (better : ℚ → ℚ → Bool) (T₀ Ta Tb : KTable)
    (hnone : ∀ s ∈ G.states, T₀ s selfKey = none)
    (hpredsub : ∀ u t, t ∈ G.preds u → t ∈ G.states)
    (ha : runsTo G ⟨selfKey, unaryCompute G opKey agg, unaryShould better⟩ T₀ Ta)
    (hb : runsTo G ⟨selfKey, unaryCompute G opKey agg, unaryShould better⟩ T₀ Tb) :
    Ta = Tb := by
  obtain ⟨ha1, ha2, ha3⟩ := unary_runsTo G opKey selfKey hk agg better T₀ Ta hnone hpredsub ha
  obtain ⟨hb1, hb2, hb3⟩ := unary_runsTo G opKey selfKey hk agg better T₀ Tb hnone hpredsub hb
  funext s k
  by_cases hks : k = selfKey
  · subst hks
    by_cases hsm : s ∈ G.states
    · rw [ha1 s hsm, hb1 s hsm]
    · rw [ha2 s hsm, hb2 s hsm]
  · rw [ha3 s k hks, hb3 s k hks]

lemma piT_updT_eval (T : KTable) (u : State) (key : String) (v : ℚ) (x : State) :
    piT (updT T u key v) key x = if x = u then v else piT T key x := by
  by_cases hxu : x = u
  · subst hxu
    rw [if_pos rfl]
    unfold piT getQ
    rw [updT_same]
    rfl
  · rw [if_neg hxu]
    unfold piT getQ
    rw [updT_ne_state _ _ _ _ _ _ hxu]

lemma untilExt_congr (G : KS) (lv : State → ℚ) (agg : List ℚ → ℚ)
    (F F' : State → ℚ) (t : State) (h : ∀ x ∈ G.succs t, F x = F' x) :
    untilExt G lv agg F t = untilExt G lv agg F' t := by
  unfold untilExt
  rw [map_congr_mem _ _ _ h]

/-- Master invariant of the `AU`/`EU` worklists: entries under other keys are
untouched, processing stays inside the state set, entries only grow, stay
present, and a state that is not enqueued satisfies the fixed-point
inequality of its operator. -/
lemma until_run_inv (G : KS) (leftKey selfKey : String) (hk : leftKey ≠ selfKey)
    (agg : List ℚ → ℚ) (T₁ : KTable)
    (hpres : ∀ s ∈ G.states, ∃ q, T₁ s selfKey = some q)
    (hpredsub : ∀ u t, t ∈ G.preds u → t ∈ G.states)
    (hdual : ∀ u t, t ∈ G.preds u ↔ u ∈ G.succs t)
    {c' : KConfig}
    (hrun : Relation.ReflTransGen
      (WLStep G ⟨selfKey, untilCompute G leftKey selfKey agg, untilShould⟩)
      (startConfig G T₁) c') :
    (∀ s k, k ≠ selfKey → c'.table s k = T₁ s k) ∧
    c'.queue ⊆ G.states.toFinset ∧
    (∀ s, s ∉ G.states → c'.table s selfKey = T₁ s selfKey) ∧
    (∀ s ∈ G.states, ∃ q, c'.table s selfKey = some q) ∧
    (∀ s, piT T₁ selfKey s ≤ piT c'.table selfKey s) ∧
    (∀ s ∈ G.states, s ∉ c'.queue →
      untilExt G (fun t => getQ T₁ t leftKey) agg (piT c'.table selfKey) s ≤
        piT c'.table selfKey s) := by
  induction hrun with
  | refl =>
    refine ⟨fun s k _ => rfl, Finset.Subset.refl _, fun s _ => rfl, hpres,
      fun s => le_refl _, fun s hs hq => absurd (List.mem_toFinset.mpr hs) hq⟩
  | tail hab hbc ih =>
    obtain ⟨ih1, ih0, ih2, ih3, ih4, ih5⟩ := ih
    obtain ⟨u, hu, rfl⟩ := hbc
    rename_i b
    have humem : u ∈ G.states := List.mem_toFinset.mp (ih0 hu)
    have hcomp : untilCompute G leftKey selfKey agg b.table u =
        untilExt G (fun t => getQ T₁ t leftKey) agg (piT b.table selfKey) u := by
      unfold untilCompute untilExt
      congr 1
      unfold getQ
      rw [ih1 u leftKey hk]
    have hshould : untilShould (untilCompute G leftKey selfKey agg b.table u)
        (b.table u selfKey) =
        decide (piT b.table selfKey u < untilCompute G leftKey selfKey agg b.table u) := rfl
    by_cases hcond : piT b.table selfKey u <
        untilExt G (fun t => getQ T₁ t leftKey) agg (piT b.table selfKey) u
    · have hupd : untilShould (untilCompute G leftKey selfKey agg b.table u)
          (b.table u selfKey) = true := by
        rw [hshould, hcomp]
        exact decide_eq_true hcond
      rw [wlStepAt_pos G _ b u hupd]
      dsimp only
      rw [hcomp]
      set v := untilExt G (fun t => getQ T₁ t leftKey) agg (piT b.table selfKey) u with hv
      have hπ : ∀ x, piT (updT b.table u selfKey v) selfKey x =
          if x = u then v else piT b.table selfKey x := piT_updT_eval b.table u selfKey v
      refine ⟨?_, ?_, ?_, ?_, ?_, ?_⟩
      · intro s k hks
        exact (updT_ne_key _ _ _ _ _ _ hks).trans (ih1 s k hks)
      · intro t ht
        rcases Finset.mem_union.mp ht with h | h
        · exact ih0 (Finset.mem_of_mem_erase h)
        · exact List.mem_toFinset.mpr (hpredsub u t (List.mem_toFinset.mp h))
      · intro s hs
        have hsu : s ≠ u := fun he => hs (by rw [he]; exact humem)
        rw [updT_ne_state _ _ _ _ _ _ hsu]
        exact ih2 s hs
      · intro s hs
        by_cases hsu : s = u
        · subst hsu
          exact ⟨v, updT_same _ _ _ _⟩
        · rw [updT_ne_state _ _ _ _ _ _ hsu]
          exact ih3 s hs
      · intro x
        rw [hπ x]
        by_cases hxu : x = u
        · rw [if_pos hxu]
          subst hxu
          exact le_trans (ih4 x) (le_of_lt hcond)
        · rw [if_neg hxu]
          exact ih4 x
      · intro t htm htq
        have htu : t ∉ (G.preds u).toFinset := fun hin => htq (Finset.mem_union_right _ hin)
        have hnsucc : u ∉ G.succs t := fun hin =>
          htu (List.mem_toFinset.mpr ((hdual u t).mpr hin))
        have hext : untilExt G (fun x => getQ T₁ x leftKey) agg
            (piT (updT b.table u selfKey v) selfKey) t =
            untilExt G (fun x => getQ T₁ x leftKey) agg (piT b.table selfKey) t := by
          apply untilExt_congr
          intro x hx
          have hxu : x ≠ u := fun he => hnsucc (he ▸ hx)
          rw [hπ x, if_neg hxu]
        rw [hext]
        by_cases htu2 : t = u
        · subst htu2
          rw [hπ t, if_pos rfl]
        · rw [hπ t, if_neg htu2]
          have htnq : t ∉ b.queue := fun hin =>
            htq (Finset.mem_union_left _ (Finset.mem_erase.mpr ⟨htu2, hin⟩))
          exact ih5 t htm htnq
    · have hupd : untilShould (untilCompute G leftKey selfKey agg b.table u)
          (b.table u selfKey) = false := by
        rw [hshould, hcomp]
        exact decide_eq_false hcond
      rw [wlStepAt_neg G _ b u hupd]
      dsimp only
      refine ⟨ih1, fun t ht => ih0 (Finset.mem_of_mem_erase ht), ih2, ih3, ih4, ?_⟩
      · intro t htm htq
        by_cases htu : t = u
        · subst htu
          exact le_of_not_lt hcond
        · exact ih5 t htm (fun hin => htq (Finset.mem_erase.mpr ⟨htu, hin⟩))

/-- Chaotic-iteration upper bound: the table of any run stays below any
fixed-point upper bound that dominates the initial table. -/
lemma until_le_closed (G : KS) (leftKey selfKey : String) (hk : leftKey ≠ selfKey)
    (agg : List ℚ → ℚ)
    (hmono : ∀ (l : List State) (F F' : State → ℚ),
      (∀ x ∈ l, F x ≤ F' x) → agg (l.map F) ≤ agg (l.map F'))
    (T₁ : KTable)
    (hpres : ∀ s ∈ G.states, ∃ q, T₁ s selfKey = some q)
    (hpredsub : ∀ u t, t ∈ G.preds u → t ∈ G.states)
    (hdual : ∀ u t, t ∈ G.preds u ↔ u ∈ G.succs t)
    (F : State → ℚ)
    (hcl : ∀ s ∈ G.states, untilExt G (fun t => getQ T₁ t leftKey) agg F s ≤ F s)
    (hinit : ∀ s, piT T₁ selfKey s ≤ F s)
    {c' : KConfig}
    (hrun : Relation.ReflTransGen
      (WLStep G ⟨selfKey, untilCompute G leftKey selfKey agg, untilShould⟩)
      (startConfig G T₁) c') :
    ∀ s, piT c'.table selfKey s ≤ F s := by
  induction hrun with
  | refl => exact hinit
  | tail hab hbc ih =>
    obtain ⟨u, hu, rfl⟩ := hbc
    rename_i b
    obtain ⟨ih1, ih0, _, _, _, _⟩ :=
      until_run_inv G leftKey selfKey hk agg T₁ hpres hpredsub hdual hab
    have humem : u ∈ G.states := List.mem_toFinset.mp (ih0 hu)
    have hcomp : untilCompute G leftKey selfKey agg b.table u =
        untilExt G (fun t => getQ T₁ t leftKey) agg (piT b.table selfKey) u := by
      unfold untilCompute untilExt
      congr 1
      unfold getQ
      rw [ih1 u leftKey hk]
    have hshould : untilShould (untilCompute G leftKey selfKey agg b.table u)
        (b.table u selfKey) =
        decide (piT b.table selfKey u < untilCompute G leftKey selfKey agg b.table u) := rfl
    by_cases hcond : piT b.table selfKey u <
        untilExt G (fun t => getQ T₁ t leftKey) agg (piT b.table selfKey) u
    · have hupd : untilShould (untilCompute G leftKey selfKey agg b.table u)
          (b.table u selfKey) = true := by
        rw [hshould, hcomp]
        exact decide_eq_true hcond
      rw [wlStepAt_pos G _ b u hupd]
      dsimp only
      rw [hcomp]
      intro x
      rw [piT_updT_eval]
      by_cases hxu : x = u
      · subst hxu
        rw [if_pos rfl]
        have hle : untilExt G (fun t => getQ T₁ t leftKey) agg (piT b.table selfKey) x ≤
            untilExt G (fun t => getQ T₁ t leftKey) agg F x := by
          unfold untilExt
          exact min_le_min (le_refl _) (hmono _ _ _ (fun y _ => ih y))
        exact le_trans hle (hcl x humem)
      · rw [if_neg hxu]
        exact ih x
    · have hupd : untilShould (untilCompute G leftKey selfKey agg b.table u)
          (b.table u selfKey) = false := by
        rw [hshould, hcomp]
        exact decide_eq_false hcond
      rw [wlStepAt_neg G _ b u hupd]
      exact ih

/-- Any two terminated runs of an `AU`/`EU` worklist from the same initial
table produce the same table (Tarski-style determinism of chaotic
iteration). -/
lemma until_confluent (G : KS) (leftKey selfKey : String) (hk : leftKey ≠ selfKey)
    (agg : List ℚ → ℚ)
    (hmono : ∀ (l : List State) (F F' : State → ℚ),
      (∀ x ∈ l, F x ≤ F' x) → agg (l.map F) ≤ agg (l.map F'))
    (T₁ Ta Tb : KTable)
    (hpres : ∀ s ∈ G.states, ∃ q, T₁ s selfKey = some q)
    (hpredsub : ∀ u t, t ∈ G.preds u → t ∈ G.states)
    (hdual : ∀ u t, t ∈ G.preds u ↔ u ∈ G.succs t)
    (ha : runsTo G ⟨selfKey, untilCompute G leftKey selfKey agg, untilShould⟩ T₁ Ta)
    (hb : runsTo G ⟨selfKey, untilCompute G leftKey selfKey agg, untilShould⟩ T₁ Tb) :
    Ta = Tb := by
  obtain ⟨ca, hrun_a, hqa, rfl⟩ := ha
  obtain ⟨cb, hrun_b, hqb, rfl⟩ := hb
  obtain ⟨a1, _, a2, a3, a4, a5⟩ :=
    until_run_inv G leftKey selfKey hk agg T₁ hpres hpredsub hdual hrun_a
  obtain ⟨b1, _, b2, b3, b4, b5⟩ :=
    until_run_inv G leftKey selfKey hk agg T₁ hpres hpredsub hdual hrun_b
  have hab : ∀ s, piT ca.table selfKey s ≤ piT cb.table selfKey s :=
    until_le_closed G leftKey selfKey hk agg hmono T₁ hpres hpredsub hdual
      (piT cb.table selfKey)
      (fun s hs => b5 s hs (by rw [hqb]; exact Finset.not_mem_empty s)) b4 hrun_a
  have hba : ∀ s, piT cb.table selfKey s ≤ piT ca.table selfKey s :=
    until_le_closed G leftKey selfKey hk agg hmono T₁ hpres hpredsub hdual
      (piT ca.table selfKey)
      (fun s hs => a5 s hs (by rw [hqa]; exact Finset.not_mem_empty s)) a4 hrun_b
  funext s k
  by_cases hks : k = selfKey
  · rw [hks]
    by_cases hsm : s ∈ G.states
    · obtain ⟨qa, hqa2⟩ := a3 s hsm
      obtain ⟨qb, hqb2⟩ := b3 s hsm
      have hva : piT ca.table selfKey s = qa := by unfold piT getQ; rw [hqa2]; rfl
      have hvb : piT cb.table selfKey s = qb := by unfold piT getQ; rw [hqb2]; rfl
      rw [hqa2, hqb2]
      have hq : qa = qb := by
        rw [← hva, ← hvb]
        exact le_antisymm (hab s) (hba s)
      rw [hq]
    · rw [a2 s hsm, b2 s hsm]
  · rw [a1 s k hks, b1 s k hks]

/-- Every entry present in the table is a score in `[-1, 1]`. -/
def rangeTable (T : KTable) : Prop :=
  ∀ s k v, T s k = some v → -1 ≤ v ∧ v ≤ 1

lemma getQ_range (T : KTable) (hT : rangeTable T) (s : State) (k : String) :
    -1 ≤ getQ T s k ∧ getQ T s k ≤ 1 := by
  unfold getQ
  cases h : T s k with
  | none => norm_num
  | some v => exact hT s k v h

lemma rangeTable_writeAll (G : KS) (key : String) (f : State → ℚ) (T : KTable)
    (hT : rangeTable T) (hf : ∀ s ∈ G.states, -1 ≤ f s ∧ f s ≤ 1) :
    rangeTable (writeAll G key f T) := by
  intro s k v h
  unfold writeAll at h
  by_cases hc : k = key ∧ s ∈ G.states
  · rw [if_pos hc] at h
    cases h
    exact hf s hc.2
  · rw [if_neg hc] at h
    exact hT s k v h

lemma rangeTable_updT (T : KTable) (s : State) (k : String) (v : ℚ)
    (hT : rangeTable T) (hv : -1 ≤ v ∧ v ≤ 1) : rangeTable (updT T s k v) := by
  intro t k' w h
  rw [updT_eval] at h
  by_cases hc : t = s ∧ k' = k
  · rw [if_pos hc] at h
    cases h
    exact hv
  · rw [if_neg hc] at h
    exact hT t k' w h

lemma rangeTable_untilInit (G : KS) (selfKey rightKey : String) (T : KTable)
    (hT : rangeTable T) : rangeTable (untilInit G selfKey rightKey T) := by
  intro s k v h
  unfold untilInit at h
  by_cases hc : k = selfKey ∧ s ∈ G.states
  · rw [if_pos hc] at h
    exact hT s rightKey v h
  · rw [if_neg hc] at h
    exact hT s k v h

lemma rangeTable_resetKey (G : KS) (key : String) (T : KTable)
    (hT : rangeTable T) : rangeTable (resetKey G key T) := by
  intro s k v h
  unfold resetKey at h
  by_cases hc : k = key ∧ s ∈ G.states
  · rw [if_pos hc] at h
    cases h
  · rw [if_neg hc] at h
    exact hT s k v h

/-- Along any worklist run whose candidate values stay in `[-1, 1]`, every
table entry stays in `[-1, 1]`. -/
lemma rangeTable_wlRun (G : KS) (P : WLParams)
    (hcomp : ∀ T, rangeTable T → ∀ s, -1 ≤ P.compute T s ∧ P.compute T s ≤ 1)
    {c c' : KConfig} (hrun : Relation.ReflTransGen (WLStep G P) c c')
    (h0 : rangeTable c.table) : rangeTable c'.table := by
  induction hrun with
  | refl => exact h0
  | tail hab hbc ih =>
    obtain ⟨u, hu, rfl⟩ := hbc
    rename_i b
    cases hupd : P.shouldUpdate (P.compute b.table u) (b.table u P.selfKey) with
    | true =>
      rw [wlStepAt_pos G P b u hupd]
      exact rangeTable_updT _ _ _ _ ih (hcomp b.table ih u)
    | false =>
      rw [wlStepAt_neg G P b u hupd]
      exact ih

lemma unaryCompute_range (G : KS) (opKey : String) (agg : List ℚ → ℚ)
    (hagg : ∀ l, (∀ x ∈ l, -1 ≤ x ∧ x ≤ 1) → -1 ≤ agg l ∧ agg l ≤ 1)
    (T : KTable) (hT : rangeTable T) (s : State) :
    -1 ≤ unaryCompute G opKey agg T s ∧ unaryCompute G opKey agg T s ≤ 1 := by
  unfold unaryCompute
  exact hagg _ (fun x hx => by
    obtain ⟨t, _, rfl⟩ := List.mem_map.mp hx
    exact getQ_range T hT t opKey)

lemma untilCompute_range (G : KS) (leftKey selfKey : String) (agg : List ℚ → ℚ)
    (hagg : ∀ l, (∀ x ∈ l, -1 ≤ x ∧ x ≤ 1) → -1 ≤ agg l ∧ agg l ≤ 1)
    (T : KTable) (hT : rangeTable T) (s : State) :
    -1 ≤ untilCompute G leftKey selfKey agg T s ∧
      untilCompute G leftKey selfKey agg T s ≤ 1 := by
  unfold untilCompute
  have h1 := getQ_range T hT s leftKey
  have h2 := hagg ((G.succs s).map (fun t => getQ T t selfKey)) (fun x hx => by
    obtain ⟨t, _, rfl⟩ := List.mem_map.mp hx
    exact getQ_range T hT t selfKey)
  exact ⟨le_min h1.1 h2.1, le_trans (min_le_left _ _) h1.2⟩

lemma listMin_range (l : List ℚ) (h : ∀ x ∈ l, -1 ≤ x ∧ x ≤ 1) :
    -1 ≤ listMin l ∧ listMin l ≤ 1 :=
  listMin_bounds l (-1) 1 (by norm_num) (by norm_num) h

lemma listMax_range (l : List ℚ) (h : ∀ x ∈ l, -1 ≤ x ∧ x ≤ 1) :
    -1 ≤ listMax l ∧ listMax l ≤ 1 :=
  listMax_bounds l (-1) 1 (by norm_num) (by norm_num) h

lemma rangeTable_runsTo_unary (G : KS) (opKey selfKey : String) (agg : List ℚ → ℚ)
    (hagg : ∀ l, (∀ x ∈ l, -1 ≤ x ∧ x ≤ 1) → -1 ≤ agg l ∧ agg l ≤ 1)
    (better : ℚ → ℚ → Bool) {T T' : KTable}
    (h : runsTo G ⟨selfKey, unaryCompute G opKey agg, unaryShould better⟩ T T')
    (hT : rangeTable T) : rangeTable T' := by
  obtain ⟨c', hrun, _, rfl⟩ := h
  exact rangeTable_wlRun G ⟨selfKey, unaryCompute G opKey agg, unaryShould better⟩
    (fun Tx hTx s => unaryCompute_range G opKey agg hagg Tx hTx s) hrun hT

lemma rangeTable_runsTo_until (G : KS) (leftKey selfKey : String) (agg : List ℚ → ℚ)
    (hagg : ∀ l, (∀ x ∈ l, -1 ≤ x ∧ x ≤ 1) → -1 ≤ agg l ∧ agg l ≤ 1)
    {T T' : KTable}
    (h : runsTo G ⟨selfKey, untilCompute G leftKey selfKey agg, untilShould⟩ T T')
    (hT : rangeTable T) : rangeTable T' := by
  obtain ⟨c', hrun, _, rfl⟩ := h
  exact rangeTable_wlRun G ⟨selfKey, untilCompute G leftKey selfKey agg, untilShould⟩
    (fun Tx hTx s => untilCompute_range G leftKey selfKey agg hagg Tx hTx s) hrun hT

/-- Range preservation of a single `evaluate` call: whichever formula class
runs, every entry it writes is a score in `[-1, 1]`, provided the states lie
inside the ambient box and the incoming table is in range. -/
lemma evaluate_range (G : KS) (hstates : ∀ s ∈ G.states, s ∈ boxStates (maxesOf G))
    (φ : Formula) {T T' : KTable} (h : evaluate G φ T T') (hT : rangeTable T) :
    rangeTable T' := by
  have hatomic : ∀ ψ : Formula, atomicEvalRel G ψ T T' → rangeTable T' := by
    intro ψ hrel
    obtain ⟨dov, _, rfl⟩ := hrel
    exact rangeTable_writeAll G _ _ T hT
      (fun s hs => atomicScore_range dov (maxesOf G) s (hstates s hs))
  have hminmax : ∀ a b : ℚ, (-1 ≤ a ∧ a ≤ 1) → (-1 ≤ b ∧ b ≤ 1) →
      ((-1 ≤ min a b ∧ min a b ≤ 1) ∧ (-1 ≤ max a b ∧ max a b ≤ 1)) := by
    intro a b ha hb
    exact ⟨⟨le_min ha.1 hb.1, le_trans (min_le_left _ _) ha.2⟩,
      ⟨le_trans ha.1 (le_max_left _ _), max_le ha.2 hb.2⟩⟩
  cases φ with
  | atomicProp v op k => exact hatomic _ h
  | negation z => exact hatomic _ h
  | union l r => exact hatomic _ h
  | inter l r => exact hatomic _ h
  | boolean b =>
    rw [show evaluate G (Formula.boolean b) T T' =
      (T' = writeAll G (Formula.boolean b).reprF (fun _ => if b then 1 else -1) T)
      from rfl] at h
    subst h
    refine rangeTable_writeAll G _ _ T hT (fun s _ => ?_)
    cases b <;> norm_num
  | conj l r =>
    rw [show evaluate G (Formula.conj l r) T T' = (T' = writeAll G (Formula.conj l r).reprF
      (fun s => min (getQ T s l.reprF) (getQ T s r.reprF)) T) from rfl] at h
    subst h
    exact rangeTable_writeAll G _ _ T hT (fun s _ =>
      (hminmax _ _ (getQ_range T hT s l.reprF) (getQ_range T hT s r.reprF)).1)
  | disj l r =>
    rw [show evaluate G (Formula.disj l r) T T' = (T' = writeAll G (Formula.disj l r).reprF
      (fun s => max (getQ T s l.reprF) (getQ T s r.reprF)) T) from rfl] at h
    subst h
    exact rangeTable_writeAll G _ _ T hT (fun s _ =>
      (hminmax _ _ (getQ_range T hT s l.reprF) (getQ_range T hT s r.reprF)).2)
  | ax z =>
    rw [show evaluate G (Formula.ax z) T T' = (T' = writeAll G (Formula.ax z).reprF
      (fun s => listMin ((G.succs s).map (fun t => getQ T t z.reprF))) T) from rfl] at h
    subst h
    refine rangeTable_writeAll G _ _ T hT (fun s _ => listMin_range _ (fun x hx => ?_))
    obtain ⟨t, _, rfl⟩ := List.mem_map.mp hx
    exact getQ_range T hT t z.reprF
  | ex z =>
    rw [show evaluate G (Formula.ex z) T T' = (T' = writeAll G (Formula.ex z).reprF
      (fun s => listMax ((G.succs s).map (fun t => getQ T t z.reprF))) T) from rfl] at h
    subst h
    refine rangeTable_writeAll G _ _ T hT (fun s _ => listMax_range _ (fun x hx => ?_))
    obtain ⟨t, _, rfl⟩ := List.mem_map.mp hx
    exact getQ_range T hT t z.reprF
  | ag z => exact rangeTable_runsTo_unary G z.reprF _ listMin listMin_range _ h hT
  | eg z => exact rangeTable_runsTo_unary G z.reprF _ listMax listMax_range _ h hT
  | af z => exact rangeTable_runsTo_unary G z.reprF _ listMin listMin_range _ h hT
  | ef z => exact rangeTable_runsTo_unary G z.reprF _ listMax listMax_range _ h hT
  | au l r =>
    exact rangeTable_runsTo_until G l.reprF _ listMin listMin_range h
      (rangeTable_untilInit G _ _ T hT)
  | eu l r =>
    exact rangeTable_runsTo_until G l.reprF _ listMax listMax_range h
      (rangeTable_untilInit G _ _ T hT)
  | aw l r =>
    obtain ⟨T₂, T₃, h1, h2, rfl⟩ := h
    have hr2 : rangeTable T₂ := rangeTable_runsTo_unary G l.reprF _ listMin listMin_range _
      h1 (rangeTable_resetKey G _ T hT)
    have hr3 : rangeTable T₃ := rangeTable_runsTo_until G l.reprF _ listMin listMin_range h2
      (rangeTable_untilInit G _ _ T₂ hr2)
    exact rangeTable_writeAll G _ _ T₃ hr3 (fun s _ =>
      (hminmax _ _ (getQ_range T₃ hr3 s (Formula.ag l).reprF)
        (getQ_range T₃ hr3 s (Formula.au l r).reprF)).2)
  | ew l r =>
    obtain ⟨T₂, T₃, h1, h2, rfl⟩ := h
    have hr2 : rangeTable T₂ := rangeTable_runsTo_unary G l.reprF _ listMax listMax_range _
      h1 (rangeTable_resetKey G _ T hT)
    have hr3 : rangeTable T₃ := rangeTable_runsTo_until G l.reprF _ listMax listMax_range h2
      (rangeTable_untilInit G _ _ T₂ hr2)
    exact rangeTable_writeAll G _ _ T₃ hr3 (fun s _ =>
      (hminmax _ _ (getQ_range T₃ hr3 s (Formula.eg l).reprF)
        (getQ_range T₃ hr3 s (Formula.eu l r).reprF)).2)

/-- Range preservation along the whole driver run. -/
lemma EvalSeq_range (G : KS) (hstates : ∀ s ∈ G.states, s ∈ boxStates (maxesOf G))
    (l : List Formula) {T T' : KTable} (h : EvalSeq G l T T') (hT : rangeTable T) :
    rangeTable T' := by
  induction l generalizing T with
  | nil => rw [show EvalSeq G [] T T' = (T' = T) from rfl] at h; subst h; exact hT
  | cons φ l ih =>
    obtain ⟨Tm, h1, h2⟩ := h
    exact ih h2 (evaluate_range G hstates φ h1 hT)

/-- The atomic proposition `(x >= 2)` of the spec's seed scenarios. -/
def atomX2 : Formula := Formula.atomicProp "x" ">=" 2

/-- The concrete seed model of §8: one variable `x` with `max = 2`, states
`{0, 1, 2}`, transitions `0→1, 1→2, 2→2`. -/
def seedKS : KS where
  vars := [("x", 2)]
  states := [[0], [1], [2]]
  succs := fun s =>
    if s = [0] then [[1]] else if s = [1] then [[2]] else if s = [2] then [[2]] else []
  preds := fun s =>
    if s = [1] then [[0]] else if s = [2] then [[1], [2]] else []

/-- A one-state Kripke structure with a self-loop, used to instantiate the
universally quantified theorems on a concrete input. -/
def oneKS : KS where
  vars := [("x", 1)]
  states := [[0]]
  succs := fun s => if s = [0] then [[0]] else []
  preds := fun s => if s = [0] then [[0]] else []

lemma oneKS_predsub : ∀ u t, t ∈ oneKS.preds u → t ∈ oneKS.states := by
  intro u t h
  show t ∈ [[0]]
  by_cases hu : u = [0]
  · rw [show oneKS.preds u = if u = [0] then [[0]] else [] from rfl, if_pos hu] at h
    exact h
  · rw [show oneKS.preds u = if u = [0] then [[0]] else [] from rfl, if_neg hu] at h
    cases h

lemma oneKS_dual : ∀ u t, t ∈ oneKS.preds u ↔ u ∈ oneKS.succs t := by
  intro u t
  show t ∈ (if u = [0] then [[0]] else []) ↔ u ∈ (if t = [0] then [[0]] else [])
  by_cases hu : u = [0] <;> by_cases ht : t = [0] <;> simp [hu, ht]

lemma seedKS_predsub : ∀ u t, t ∈ seedKS.preds u → t ∈ seedKS.states := by
  intro u t h
  show t ∈ [[0], [1], [2]]
  rw [show seedKS.preds u =
    (if u = [1] then [[0]] else if u = [2] then [[1], [2]] else []) from rfl] at h
  by_cases h1 : u = [1]
  · rw [if_pos h1] at h
    simp at h
    simp [h]
  · rw [if_neg h1] at h
    by_cases h2 : u = [2]
    · rw [if_pos h2] at h
      simp at h
      rcases h with h | h <;> simp [h]
    · rw [if_neg h2] at h
      cases h

lemma getD_set_self (l : List (List ℤ)) (i : ℕ) (a : List ℤ) (h : i < l.length) :
    (l.set i a).getD i [] = a := by
  rw [List.getD_eq_getElem?_getD, List.getElem?_set_self', List.getElem?_eq_getElem h]
  rfl

lemma getD_set_ne (l : List (List ℤ)) (i j : ℕ) (a : List ℤ) (h : j ≠ i) :
    (l.set i a).getD j [] = l.getD j [] := by
  rw [List.getD_eq_getElem?_getD, List.getD_eq_getElem?_getD,
    List.getElem?_set_ne (fun he => h he.symm)]

lemma mem_intRange (maxv : ℕ) (x : ℤ) :
    x ∈ (List.range (maxv + 1)).map Int.ofNat ↔ 0 ≤ x ∧ x ≤ maxv := by
  rw [List.mem_map]
  constructor
  · rintro ⟨n, hn, rfl⟩
    rw [List.mem_range] at hn
    rw [Int.ofNat_eq_natCast]
    omega
  · rintro ⟨h0, h1⟩
    refine ⟨x.toNat, List.mem_range.mpr (by omega), ?_⟩
    rw [Int.ofNat_eq_natCast]
    omega

lemma mem_validValuesGe (k : ℤ) (maxv : ℕ) (x : ℤ) :
    x ∈ validValuesGe k maxv ↔ max k 0 ≤ x ∧ x ≤ maxv := by
  unfold validValuesGe
  rw [List.mem_filter, mem_intRange, decide_eq_true_eq]
  omega

lemma mem_validValuesLe (k : ℤ) (maxv : ℕ) (x : ℤ) :
    x ∈ validValuesLe k maxv ↔ 0 ≤ x ∧ x ≤ min k maxv := by
  unfold validValuesLe
  rw [List.mem_filter, mem_intRange, decide_eq_true_eq]
  omega

lemma mem_insertSorted (x y : ℤ) (l : List ℤ) :
    x ∈ insertSorted y l ↔ x = y ∨ x ∈ l := by
  induction l with
  | nil => simp [insertSorted]
  | cons z zs ih =>
    unfold insertSorted
    by_cases h : y ≤ z
    · rw [if_pos h]
      simp
    · rw [if_neg h]
      simp only [List.mem_cons, ih]
      tauto

lemma mem_sortInts (x : ℤ) (l : List ℤ) : x ∈ sortInts l ↔ x ∈ l := by
  induction l with
  | nil => simp [sortInts]
  | cons z zs ih =>
    show x ∈ insertSorted z (sortInts zs) ↔ _
    rw [mem_insertSorted, ih]
    simp

lemma mem_sortedInter (a b : List ℤ) (x : ℤ) :
    x ∈ sortedInter a b ↔ x ∈ a ∧ x ∈ b := by
  unfold sortedInter
  rw [mem_sortInts, List.mem_dedup, List.mem_filter, decide_eq_true_eq]

/-- C4 (code_bug record): calling `eliminate_negation` on a root `Negation`
whose operand is not itself a `Negation` returns the very same `Negation`
node — `Negation.eliminate_negation` falls through to `return self` — so a
`Negation` survives normalisation, contradicting the claim and the method's
own docstring ("returning an equivalent negation-free formula"). -/
theorem c4_negation_survives_at_root :
    Formula.eliminate_negation (Formula.negation atomX2) = Formula.negation atomX2 ∧
    (Formula.eliminate_negation (Formula.negation atomX2)).hasNegation = true := by
  have h : Formula.eliminate_negation (Formula.negation atomX2) = Formula.negation atomX2 := by
    rw [Formula.eliminate_negation]
    intro w hw
    exact Formula.noConfusion hw
  exact ⟨h, by rw [h]; rfl⟩

/-- C10: `yield_dov` and `get_subformulae` on a `Negation` node always abort
with an error (`NotImplementedError` in the source), for every operand and
every argument. -/
theorem c10_negation_always_raises (z : Formula) (dov : List (List ℤ))
    (maxes : List (String × ℕ)) :
    (Formula.negation z).yield_dov dov maxes =
      .error "Negation must be eliminated before calling yield_dov." ∧
    (Formula.negation z).get_subformulae =
      .error "Negation must be eliminated before calling get_subformulae." :=
  ⟨rfl, rfl⟩

/-- C8: `AtomicProposition.yield_dov` intersects the variable's axis with
`[max(k,0), max_var]` for `>=`, with `[0, min(k, max_var)]` for `<=`, leaves
every other axis unchanged, and rejects any other operator with an error
naming it. -/
theorem c8_atomic_yield_dov (v : String) (k : ℤ) (dov : List (List ℤ))
    (maxes : List (String × ℕ)) (idx : ℕ) (maxv : ℕ)
    (hidx : List.findIdx? (fun p => p.1 == v) maxes = some idx)
    (hmax : maxes.lookup v = some maxv)
    (hlen : idx < dov.length) :
    (∃ dov', (Formula.atomicProp v ">=" k).yield_dov dov maxes = .ok dov' ∧
      (∀ x : ℤ, x ∈ dov'.getD idx [] ↔ x ∈ dov.getD idx [] ∧ max k 0 ≤ x ∧ x ≤ maxv) ∧
      (∀ j, j ≠ idx → dov'.getD j [] = dov.getD j [])) ∧
    (∃ dov', (Formula.atomicProp v "<=" k).yield_dov dov maxes = .ok dov' ∧
      (∀ x : ℤ, x ∈ dov'.getD idx [] ↔ x ∈ dov.getD idx [] ∧ 0 ≤ x ∧ x ≤ min k maxv) ∧
      (∀ j, j ≠ idx → dov'.getD j [] = dov.getD j [])) ∧
    (∀ op, op ≠ ">=" → op ≠ "<=" →
      (Formula.atomicProp v op k).yield_dov dov maxes =
        .error ("Unsupported operator: " ++ op)) := by
  refine ⟨⟨dov.set idx (sortedInter (dov.getD idx []) (validValuesGe k maxv)), ?_, ?_, ?_⟩,
    ⟨dov.set idx (sortedInter (dov.getD idx []) (validValuesLe k maxv)), ?_, ?_, ?_⟩, ?_⟩
  · show Formula.yield_dov _ _ _ = _
    rw [Formula.yield_dov, hidx, hmax]
    rfl
  · intro x
    rw [getD_set_self dov idx _ hlen, mem_sortedInter, mem_validValuesGe]
  · intro j hj
    exact getD_set_ne dov idx j _ hj
  · show Formula.yield_dov _ _ _ = _
    rw [Formula.yield_dov, hidx, hmax]
    rfl
  · intro x
    rw [getD_set_self dov idx _ hlen, mem_sortedInter, mem_validValuesLe]
  · intro j hj
    exact getD_set_ne dov idx j _ hj
  · intro op h1 h2
    show Formula.yield_dov _ _ _ = _
    rw [Formula.yield_dov, hidx, hmax]
    dsimp only
    rw [if_neg (by rw [beq_eq_false_iff_ne.mpr h1]; exact Bool.false_ne_true),
      if_neg (by rw [beq_eq_false_iff_ne.mpr h2]; exact Bool.false_ne_true)]

/-- C8 witness: the `(x >= 2)` and `(x <= 2)` leaves on the one-variable
model with `max = 2` and the ambient axis `[0, 1, 2]`. -/
theorem c8_atomic_yield_dov_witness :
    (∃ dov', (Formula.atomicProp "x" ">=" 2).yield_dov [[0, 1, 2]] [("x", 2)] = .ok dov' ∧
      (∀ x : ℤ, x ∈ dov'.getD 0 [] ↔ x ∈ ([[0, 1, 2]] : List (List ℤ)).getD 0 [] ∧
        max 2 0 ≤ x ∧ x ≤ (2 : ℕ)) ∧
      (∀ j, j ≠ 0 → dov'.getD j [] = ([[0, 1, 2]] : List (List ℤ)).getD j [])) ∧
    (∃ dov', (Formula.atomicProp "x" "<=" 2).yield_dov [[0, 1, 2]] [("x", 2)] = .ok dov' ∧
      (∀ x : ℤ, x ∈ dov'.getD 0 [] ↔ x ∈ ([[0, 1, 2]] : List (List ℤ)).getD 0 [] ∧
        0 ≤ x ∧ x ≤ min 2 (2 : ℕ)) ∧
      (∀ j, j ≠ 0 → dov'.getD j [] = ([[0, 1, 2]] : List (List ℤ)).getD j [])) ∧
    (∀ op, op ≠ ">=" → op ≠ "<=" →
      (Formula.atomicProp "x" op 2).yield_dov [[0, 1, 2]] [("x", 2)] =
        .error ("Unsupported operator: " ++ op)) :=
  c8_atomic_yield_dov "x" 2 [[0, 1, 2]] [("x", 2)] 0 2 (by decide) (by decide) (by decide)

/-- C2: for every atomic leaf (any formula class evaluated through
`AtomicFormula.evaluate`) and every model state, the written score equals
`wsd / |ext_wsd|` when `ext_wsd ≠ 0`, equals `1` when `ext_wsd = 0`, and lies
in `[-1, 1]`.  Under the spec-modelled kernel the extreme value is a
magnitude, so it is nonnegative: the source's `ext_wsd > 0` test agrees with
`ext_wsd ≠ 0`, and the score is provably in range, making the clamp the
identity. -/
theorem c2_atomic_score_normalisation (G : KS) (φ : Formula) (T T' : KTable)
    (h : atomicEvalRel G φ T T') (s : State) (hsG : s ∈ G.states)
    (hbox : s ∈ boxStates (maxesOf G)) :
    ∃ dov, φ.yield_dov (ambientDov G) G.vars = .ok dov ∧
      T' s φ.reprF = some (atomicScore dov (maxesOf G) s) ∧
      (find_extreme_value dov (maxesOf G)
          (decide (0 ≤ weighted_signed_distance dov s (maxesOf G))) ≠ 0 →
        atomicScore dov (maxesOf G) s =
          weighted_signed_distance dov s (maxesOf G) /
            |find_extreme_value dov (maxesOf G)
              (decide (0 ≤ weighted_signed_distance dov s (maxesOf G)))|) ∧
      (find_extreme_value dov (maxesOf G)
          (decide (0 ≤ weighted_signed_distance dov s (maxesOf G))) = 0 →
        atomicScore dov (maxesOf G) s = 1) ∧
      (-1 ≤ atomicScore dov (maxesOf G) s ∧ atomicScore dov (maxesOf G) s ≤ 1) := by
  obtain ⟨dov, hdov, rfl⟩ := h
  have hdef : atomicScore dov (maxesOf G) s =
      if 0 < find_extreme_value dov (maxesOf G)
          (decide (0 ≤ weighted_signed_distance dov s (maxesOf G))) then
        weighted_signed_distance dov s (maxesOf G) /
          find_extreme_value dov (maxesOf G)
            (decide (0 ≤ weighted_signed_distance dov s (maxesOf G)))
      else 1 := rfl
  refine ⟨dov, hdov, ?_, ?_, ?_, atomicScore_range dov (maxesOf G) s hbox⟩
  · unfold writeAll
    rw [if_pos ⟨rfl, hsG⟩]
  · intro hne
    have hpos : 0 < find_extreme_value dov (maxesOf G)
        (decide (0 ≤ weighted_signed_distance dov s (maxesOf G))) :=
      lt_of_le_of_ne (find_extreme_value_nonneg dov (maxesOf G) _) (Ne.symm hne)
    rw [hdef, if_pos hpos, abs_of_pos hpos]
  · intro heq
    rw [hdef, heq]
    rw [if_neg (lt_irrefl 0)]

/-- C2 witness: the leaf `(x >= 2)` evaluated over the seed model at state
`0`. -/
theorem c2_atomic_score_witness :
    ∃ dov, atomX2.yield_dov (ambientDov seedKS) seedKS.vars = .ok dov ∧
      (writeAll seedKS atomX2.reprF
          (fun s => atomicScore [[2]] (maxesOf seedKS) s) (fun _ _ => none))
        [0] atomX2.reprF = some (atomicScore dov (maxesOf seedKS) [0]) ∧
      (find_extreme_value dov (maxesOf seedKS)
          (decide (0 ≤ weighted_signed_distance dov [0] (maxesOf seedKS))) ≠ 0 →
        atomicScore dov (maxesOf seedKS) [0] =
          weighted_signed_distance dov [0] (maxesOf seedKS) /
            |find_extreme_value dov (maxesOf seedKS)
              (decide (0 ≤ weighted_signed_distance dov [0] (maxesOf seedKS)))|) ∧
      (find_extreme_value dov (maxesOf seedKS)
          (decide (0 ≤ weighted_signed_distance dov [0] (maxesOf seedKS))) = 0 →
        atomicScore dov (maxesOf seedKS) [0] = 1) ∧
      (-1 ≤ atomicScore dov (maxesOf seedKS) [0] ∧ atomicScore dov (maxesOf seedKS) [0] ≤ 1) :=
  c2_atomic_score_normalisation seedKS atomX2 (fun _ _ => none) _
    ⟨[[2]], by rfl, rfl⟩ [0] (by decide) (by decide)

/-- The claim's description of one `AU` worklist step, written from its text:
`a = min over successors of the AU entry`, `new = min(score(s, φ), a)`,
overwrite exactly when `new > current`, and on update enqueue all
predecessors. -/
def auStepSpec (G : KS) (leftKey selfKey : String) (c : KConfig) (s : State) : KConfig :=
  let a := listMin ((G.succs s).map (fun t => (c.table t selfKey).getD 0))
  let nw := min ((c.table s leftKey).getD 0) a
  if (c.table s selfKey).getD 0 < nw then
    ⟨c.queue.erase s ∪ (G.preds s).toFinset, updT c.table s selfKey nw⟩
  else ⟨c.queue.erase s, c.table⟩

/-- The claim's initialisation for `AU`: the table entry of `AU` at every
state starts as the right operand's entry. -/
def auInitSpec (G : KS) (selfKey rightKey : String) (T : KTable) : KTable :=
  fun s k => if k = selfKey ∧ s ∈ G.states then T s rightKey else T s k

/-- The complete `AU` evaluation as the claim describes it. -/
def AUSpecRel (G : KS) (l r : Formula) (T T' : KTable) : Prop :=
  ∃ c', Relation.ReflTransGen
      (fun c c'' => ∃ s, s ∈ c.queue ∧
        c'' = auStepSpec G l.reprF (Formula.au l r).reprF c s)
      ⟨G.states.toFinset, auInitSpec G (Formula.au l r).reprF r.reprF T⟩ c' ∧
    c'.queue = ∅ ∧ T' = c'.table

lemma auStepSpec_eq (G : KS) (lk sk : String) (c : KConfig) (s : State) :
    auStepSpec G lk sk c s = wlStepAt G (auParams G lk sk) c s := by
  by_cases hp : (c.table s sk).getD 0 <
      min ((c.table s lk).getD 0) (listMin ((G.succs s).map (fun t => (c.table t sk).getD 0)))
  · have hb : (auParams G lk sk).shouldUpdate ((auParams G lk sk).compute c.table s)
        (c.table s (auParams G lk sk).selfKey) = true := decide_eq_true hp
    rw [wlStepAt_pos G _ c s hb]
    unfold auStepSpec
    dsimp only
    rw [if_pos hp]
    rfl
  · have hb : (auParams G lk sk).shouldUpdate ((auParams G lk sk).compute c.table s)
        (c.table s (auParams G lk sk).selfKey) = false := decide_eq_false hp
    rw [wlStepAt_neg G _ c s hb]
    unfold auStepSpec
    dsimp only
    rw [if_neg hp]

/-- C7: `AU.evaluate` is exactly the algorithm the claim describes — the same
initialisation (copying `score(s, ψ)` into the `AU` entry of every state) and
the same worklist step. -/
theorem c7_au_evaluate_algorithm (G : KS) (l r : Formula) (T T' : KTable) :
    (evaluate G (Formula.au l r) T T' ↔ AUSpecRel G l r T T') ∧
    (∀ s ∈ G.states,
      auInitSpec G (Formula.au l r).reprF r.reprF T s (Formula.au l r).reprF =
        T s r.reprF) := by
  have hrel : (fun c c'' => ∃ s, s ∈ c.queue ∧
      c'' = auStepSpec G l.reprF (Formula.au l r).reprF c s) =
      WLStep G (auParams G l.reprF (Formula.au l r).reprF) := by
    funext c c''
    apply propext
    constructor
    · rintro ⟨s, hs, rfl⟩
      exact ⟨s, hs, auStepSpec_eq G _ _ c s⟩
    · rintro ⟨s, hs, rfl⟩
      exact ⟨s, hs, (auStepSpec_eq G _ _ c s).symm⟩
  constructor
  · show runsTo G (auParams G l.reprF (Formula.au l r).reprF)
      (untilInit G (Formula.au l r).reprF r.reprF T) T' ↔ AUSpecRel G l r T T'
    unfold AUSpecRel runsTo startConfig
    rw [hrel]
    exact Iff.rfl
  · intro s hs
    show (if (Formula.au l r).reprF = (Formula.au l r).reprF ∧ s ∈ G.states
      then T s r.reprF else T s (Formula.au l r).reprF) = T s r.reprF
    rw [if_pos ⟨rfl, hs⟩]

/-- C3: the worklists of AG, EG, AF and EF stabilise at the one-step value.
After `evaluate` returns, the entry at every state is the minimum (AG, AF)
resp. maximum (EG, EF) of the operand's finalised scores over the state's
successors — exactly the value the single-pass AX resp. EX writes (last two
conjuncts) — because each update reads only the operand's entries, which
never change during the run. -/
theorem c3_unary_worklists_one_step (G : KS) (φ : Formula) (g : State → ℚ)
    (T₀ : KTable) (hg : ∀ s, T₀ s φ.reprF = some (g s))
    (hpredsub : ∀ u t, t ∈ G.preds u → t ∈ G.states) :
    ((∀ s ∈ G.states, T₀ s (Formula.ag φ).reprF = none) →
      ∀ T', evaluate G (Formula.ag φ) T₀ T' → ∀ s ∈ G.states,
        T' s (Formula.ag φ).reprF = some (listMin ((G.succs s).map g))) ∧
    ((∀ s ∈ G.states, T₀ s (Formula.eg φ).reprF = none) →
      ∀ T', evaluate G (Formula.eg φ) T₀ T' → ∀ s ∈ G.states,
        T' s (Formula.eg φ).reprF = some (listMax ((G.succs s).map g))) ∧
    ((∀ s ∈ G.states, T₀ s (Formula.af φ).reprF = none) →
      ∀ T', evaluate G (Formula.af φ) T₀ T' → ∀ s ∈ G.states,
        T' s (Formula.af φ).reprF = some (listMin ((G.succs s).map g))) ∧
    ((∀ s ∈ G.states, T₀ s (Formula.ef φ).reprF = none) →
      ∀ T', evaluate G (Formula.ef φ) T₀ T' → ∀ s ∈ G.states,
        T' s (Formula.ef φ).reprF = some (listMax ((G.succs s).map g))) ∧
    (∀ T', evaluate G (Formula.ax φ) T₀ T' → ∀ s ∈ G.states,
      T' s (Formula.ax φ).reprF = some (listMin ((G.succs s).map g))) ∧
    (∀ T', evaluate G (Formula.ex φ) T₀ T' → ∀ s ∈ G.states,
      T' s (Formula.ex φ).reprF = some (listMax ((G.succs s).map g))) := by
  have hmin : ∀ s, unaryCompute G φ.reprF listMin T₀ s = listMin ((G.succs s).map g) := by
    intro s
    unfold unaryCompute
    rw [map_congr_mem _ _ g (fun t _ => by unfold getQ; rw [hg t]; rfl)]
  have hmax : ∀ s, unaryCompute G φ.reprF listMax T₀ s = listMax ((G.succs s).map g) := by
    intro s
    unfold unaryCompute
    rw [map_congr_mem _ _ g (fun t _ => by unfold getQ; rw [hg t]; rfl)]
  refine ⟨?_, ?_, ?_, ?_, ?_, ?_⟩
  · intro hnone T' h s hs
    have hres := unary_runsTo G φ.reprF (Formula.ag φ).reprF
      (Ne.symm (Formula.reprF_ag_ne φ)) listMin (fun v w => decide (v < w)) T₀ T'
      hnone hpredsub h
    rw [hres.1 s hs, hmin s]
  · intro hnone T' h s hs
    have hres := unary_runsTo G φ.reprF (Formula.eg φ).reprF
      (Ne.symm (Formula.reprF_eg_ne φ)) listMax (fun v w => decide (v < w)) T₀ T'
      hnone hpredsub h
    rw [hres.1 s hs, hmax s]
  · intro hnone T' h s hs
    have hres := unary_runsTo G φ.reprF (Formula.af φ).reprF
      (Ne.symm (Formula.reprF_af_ne φ)) listMin (fun v w => decide (w < v)) T₀ T'
      hnone hpredsub h
    rw [hres.1 s hs, hmin s]
  · intro hnone T' h s hs
    have hres := unary_runsTo G φ.reprF (Formula.ef φ).reprF
      (Ne.symm (Formula.reprF_ef_ne φ)) listMax (fun v w => decide (w < v)) T₀ T'
      hnone hpredsub h
    rw [hres.1 s hs, hmax s]
  · intro T' h s hs
    rw [show evaluate G (Formula.ax φ) T₀ T' = (T' = writeAll G (Formula.ax φ).reprF
      (fun t => listMin ((G.succs t).map (fun u => getQ T₀ u φ.reprF))) T₀) from rfl] at h
    subst h
    unfold writeAll
    rw [if_pos ⟨rfl, hs⟩]
    exact congrArg some (hmin s)
  · intro T' h s hs
    rw [show evaluate G (Formula.ex φ) T₀ T' = (T' = writeAll G (Formula.ex φ).reprF
      (fun t => listMax ((G.succs t).map (fun u => getQ T₀ u φ.reprF))) T₀) from rfl] at h
    subst h
    unfold writeAll
    rw [if_pos ⟨rfl, hs⟩]
    exact congrArg some (hmax s)

/-- A table with only the operand's scores finalised (all `0`), used to drive
the concrete one-state runs. -/
def c3T0 : KTable := fun _ k => if k = atomX2.reprF then some 0 else none

/-- Two pops of the single state `[0]`: the first writes the one-step value
and re-enqueues `[0]` (it is its own predecessor), the second makes no
change and empties the queue. -/
def oneRun2 (P : WLParams) : KConfig :=
  wlStepAt oneKS P (wlStepAt oneKS P (startConfig oneKS c3T0) [0]) [0]

lemma oneRun2_rtg (P : WLParams) (h1 : [0] ∈ (startConfig oneKS c3T0).queue)
    (h2 : [0] ∈ (wlStepAt oneKS P (startConfig oneKS c3T0) [0]).queue) :
    Relation.ReflTransGen (WLStep oneKS P) (startConfig oneKS c3T0) (oneRun2 P) :=
  Relation.ReflTransGen.tail
    (Relation.ReflTransGen.tail Relation.ReflTransGen.refl ⟨[0], h1, rfl⟩)
    ⟨[0], h2, rfl⟩

/-- C3 witness: the four worklists and the two next operators on the
one-state model, with the operand's score `0` everywhere. -/
theorem c3_unary_worklists_one_step_witness :
    (oneRun2 (agParams oneKS atomX2.reprF (Formula.ag atomX2).reprF)).table [0]
      (Formula.ag atomX2).reprF = some 0 ∧
    (oneRun2 (egParams oneKS atomX2.reprF (Formula.eg atomX2).reprF)).table [0]
      (Formula.eg atomX2).reprF = some 0 ∧
    (oneRun2 (afParams oneKS atomX2.reprF (Formula.af atomX2).reprF)).table [0]
      (Formula.af atomX2).reprF = some 0 ∧
    (oneRun2 (efParams oneKS atomX2.reprF (Formula.ef atomX2).reprF)).table [0]
      (Formula.ef atomX2).reprF = some 0 ∧
    (writeAll oneKS (Formula.ax atomX2).reprF
      (fun t => listMin ((oneKS.succs t).map (fun u => getQ c3T0 u atomX2.reprF))) c3T0)
      [0] (Formula.ax atomX2).reprF = some 0 ∧
    (writeAll oneKS (Formula.ex atomX2).reprF
      (fun t => listMax ((oneKS.succs t).map (fun u => getQ c3T0 u atomX2.reprF))) c3T0)
      [0] (Formula.ex atomX2).reprF = some 0 := by
  have hthm := c3_unary_worklists_one_step oneKS atomX2 (fun _ => 0) c3T0
    (fun s => if_pos rfl) oneKS_predsub
  refine ⟨?_, ?_, ?_, ?_, ?_, ?_⟩
  · exact (hthm.1 (by decide) _
      ⟨_, oneRun2_rtg _ (by decide) (by decide), by decide, rfl⟩ [0] (by decide)).trans
      (by decide)
  · exact (hthm.2.1 (by decide) _
      ⟨_, oneRun2_rtg _ (by decide) (by decide), by decide, rfl⟩ [0] (by decide)).trans
      (by decide)
  · exact (hthm.2.2.1 (by decide) _
      ⟨_, oneRun2_rtg _ (by decide) (by decide), by decide, rfl⟩ [0] (by decide)).trans
      (by decide)
  · exact (hthm.2.2.2.1 (by decide) _
      ⟨_, oneRun2_rtg _ (by decide) (by decide), by decide, rfl⟩ [0] (by decide)).trans
      (by decide)
  · exact (hthm.2.2.2.2.1 _ rfl [0] (by decide)).trans (by decide)
  · exact (hthm.2.2.2.2.2 _ rfl [0] (by decide)).trans (by decide)

/-- C9: for each temporal operator's worklist evaluation with finalised
operand scores, any two terminated runs — i.e. any two pop orders of the
set-valued worklist — produce identical final result tables.  For the four
unary operators this holds because every processed state ends at the fixed
one-step value; for AU/EU because every terminated run is the least
fixed point above the initial table (Tarski/Knaster). -/
theorem c9_worklist_order_independence (G : KS)
    (hpredsub : ∀ u t, t ∈ G.preds u → t ∈ G.states)
    (hdual : ∀ u t, t ∈ G.preds u ↔ u ∈ G.succs t) :
    (∀ (φ : Formula) (T₀ Ta Tb : KTable),
      (∀ s ∈ G.states, T₀ s (Formula.ag φ).reprF = none) →
      evaluate G (Formula.ag φ) T₀ Ta → evaluate G (Formula.ag φ) T₀ Tb → Ta = Tb) ∧
    (∀ (φ : Formula) (T₀ Ta Tb : KTable),
      (∀ s ∈ G.states, T₀ s (Formula.eg φ).reprF = none) →
      evaluate G (Formula.eg φ) T₀ Ta → evaluate G (Formula.eg φ) T₀ Tb → Ta = Tb) ∧
    (∀ (φ : Formula) (T₀ Ta Tb : KTable),
      (∀ s ∈ G.states, T₀ s (Formula.af φ).reprF = none) →
      evaluate G (Formula.af φ) T₀ Ta → evaluate G (Formula.af φ) T₀ Tb → Ta = Tb) ∧
    (∀ (φ : Formula) (T₀ Ta Tb : KTable),
      (∀ s ∈ G.states, T₀ s (Formula.ef φ).reprF = none) →
      evaluate G (Formula.ef φ) T₀ Ta → evaluate G (Formula.ef φ) T₀ Tb → Ta = Tb) ∧
    (∀ (l r : Formula) (T₀ Ta Tb : KTable),
      (∀ s ∈ G.states, ∃ q, T₀ s r.reprF = some q) →
      evaluate G (Formula.au l r) T₀ Ta → evaluate G (Formula.au l r) T₀ Tb → Ta = Tb) ∧
    (∀ (l r : Formula) (T₀ Ta Tb : KTable),
      (∀ s ∈ G.states, ∃ q, T₀ s r.reprF = some q) →
      evaluate G (Formula.eu l r) T₀ Ta → evaluate G (Formula.eu l r) T₀ Tb → Ta = Tb) := by
  have hpresInit : ∀ (sk rk : String) (T₀ : KTable),
      (∀ s ∈ G.states, ∃ q, T₀ s rk = some q) →
      ∀ s ∈ G.states, ∃ q, untilInit G sk rk T₀ s sk = some q := by
    intro sk rk T₀ hψ s hs
    obtain ⟨q, hq⟩ := hψ s hs
    refine ⟨q, ?_⟩
    unfold untilInit
    rw [if_pos ⟨rfl, hs⟩]
    exact hq
  refine ⟨?_, ?_, ?_, ?_, ?_, ?_⟩
  · intro φ T₀ Ta Tb hnone ha hb
    exact unary_confluent G φ.reprF (Formula.ag φ).reprF (Ne.symm (Formula.reprF_ag_ne φ))
      listMin (fun v w => decide (v < w)) T₀ Ta Tb hnone hpredsub ha hb
  · intro φ T₀ Ta Tb hnone ha hb
    exact unary_confluent G φ.reprF (Formula.eg φ).reprF (Ne.symm (Formula.reprF_eg_ne φ))
      listMax (fun v w => decide (v < w)) T₀ Ta Tb hnone hpredsub ha hb
  · intro φ T₀ Ta Tb hnone ha hb
    exact unary_confluent G φ.reprF (Formula.af φ).reprF (Ne.symm (Formula.reprF_af_ne φ))
      listMin (fun v w => decide (w < v)) T₀ Ta Tb hnone hpredsub ha hb
  · intro φ T₀ Ta Tb hnone ha hb
    exact unary_confluent G φ.reprF (Formula.ef φ).reprF (Ne.symm (Formula.reprF_ef_ne φ))
      listMax (fun v w => decide (w < v)) T₀ Ta Tb hnone hpredsub ha hb
  · intro l r T₀ Ta Tb hψ ha hb
    exact until_confluent G l.reprF (Formula.au l r).reprF
      (Ne.symm (Formula.reprF_au_ne_left l r)) listMin
      (fun xs F F' hF => listMin_mono_map xs F F' hF)
      (untilInit G (Formula.au l r).reprF r.reprF T₀) Ta Tb
      (hpresInit _ _ T₀ hψ) hpredsub hdual ha hb
  · intro l r T₀ Ta Tb hψ ha hb
    exact until_confluent G l.reprF (Formula.eu l r).reprF
      (Ne.symm (Formula.reprF_eu_ne_left l r)) listMax
      (fun xs F F' hF => listMax_mono_map xs F F' hF)
      (untilInit G (Formula.eu l r).reprF r.reprF T₀) Ta Tb
      (hpresInit _ _ T₀ hψ) hpredsub hdual ha hb

/-- The atomic proposition `(x <= 0)`, the right operand of the concrete
until runs. -/
def atomLe0 : Formula := Formula.atomicProp "x" "<=" 0

/-- A table with the scores of `(x >= 2)` (all `1`) and `(x <= 0)` (all `0`)
finalised, for the concrete until runs on the one-state model. -/
def c6T0 : KTable := fun _ k =>
  if k = atomX2.reprF then some 1 else if k = atomLe0.reprF then some 0 else none

/-- A single pop of `[0]` terminates the concrete `AU`/`EU` runs on the
one-state model: the candidate `min(1, 0) = 0` does not beat the initial
entry `0`. -/
def untilRun1 (P : WLParams) (T₁ : KTable) : KConfig :=
  wlStepAt oneKS P ⟨oneKS.states.toFinset, T₁⟩ [0]

lemma untilRun1_rtg (P : WLParams) (T₁ : KTable)
    (h1 : [0] ∈ (⟨oneKS.states.toFinset, T₁⟩ : KConfig).queue) :
    Relation.ReflTransGen (WLStep oneKS P) ⟨oneKS.states.toFinset, T₁⟩
      (untilRun1 P T₁) :=
  Relation.ReflTransGen.tail Relation.ReflTransGen.refl ⟨[0], h1, rfl⟩

/-- C9 witness: discharging all six conjuncts on the one-state model with
the concrete terminated runs. -/
theorem c9_worklist_order_independence_witness :
    (oneRun2 (agParams oneKS atomX2.reprF (Formula.ag atomX2).reprF)).table =
      (oneRun2 (agParams oneKS atomX2.reprF (Formula.ag atomX2).reprF)).table ∧
    (oneRun2 (egParams oneKS atomX2.reprF (Formula.eg atomX2).reprF)).table =
      (oneRun2 (egParams oneKS atomX2.reprF (Formula.eg atomX2).reprF)).table ∧
    (oneRun2 (afParams oneKS atomX2.reprF (Formula.af atomX2).reprF)).table =
      (oneRun2 (afParams oneKS atomX2.reprF (Formula.af atomX2).reprF)).table ∧
    (oneRun2 (efParams oneKS atomX2.reprF (Formula.ef atomX2).reprF)).table =
      (oneRun2 (efParams oneKS atomX2.reprF (Formula.ef atomX2).reprF)).table ∧
    (untilRun1 (auParams oneKS atomX2.reprF (Formula.au atomX2 atomLe0).reprF)
        (untilInit oneKS (Formula.au atomX2 atomLe0).reprF atomLe0.reprF c6T0)).table =
      (untilRun1 (auParams oneKS atomX2.reprF (Formula.au atomX2 atomLe0).reprF)
        (untilInit oneKS (Formula.au atomX2 atomLe0).reprF atomLe0.reprF c6T0)).table ∧
    (untilRun1 (euParams oneKS atomX2.reprF (Formula.eu atomX2 atomLe0).reprF)
        (untilInit oneKS (Formula.eu atomX2 atomLe0).reprF atomLe0.reprF c6T0)).table =
      (untilRun1 (euParams oneKS atomX2.reprF (Formula.eu atomX2 atomLe0).reprF)
        (untilInit oneKS (Formula.eu atomX2 atomLe0).reprF atomLe0.reprF c6T0)).table := by
  have hthm := c9_worklist_order_independence oneKS oneKS_predsub oneKS_dual
  have hagRun : evaluate oneKS (Formula.ag atomX2) c3T0
      (oneRun2 (agParams oneKS atomX2.reprF (Formula.ag atomX2).reprF)).table :=
    ⟨_, oneRun2_rtg _ (by decide) (by decide), by decide, rfl⟩
  have hegRun : evaluate oneKS (Formula.eg atomX2) c3T0
      (oneRun2 (egParams oneKS atomX2.reprF (Formula.eg atomX2).reprF)).table :=
    ⟨_, oneRun2_rtg _ (by decide) (by decide), by decide, rfl⟩
  have hafRun : evaluate oneKS (Formula.af atomX2) c3T0
      (oneRun2 (afParams oneKS atomX2.reprF (Formula.af atomX2).reprF)).table :=
    ⟨_, oneRun2_rtg _ (by decide) (by decide), by decide, rfl⟩
  have hefRun : evaluate oneKS (Formula.ef atomX2) c3T0
      (oneRun2 (efParams oneKS atomX2.reprF (Formula.ef atomX2).reprF)).table :=
    ⟨_, oneRun2_rtg _ (by decide) (by decide), by decide, rfl⟩
  have hauRun : evaluate oneKS (Formula.au atomX2 atomLe0) c6T0
      (untilRun1 (auParams oneKS atomX2.reprF (Formula.au atomX2 atomLe0).reprF)
        (untilInit oneKS (Formula.au atomX2 atomLe0).reprF atomLe0.reprF c6T0)).table :=
    ⟨_, untilRun1_rtg _ _ (by decide), by decide, rfl⟩
  have heuRun : evaluate oneKS (Formula.eu atomX2 atomLe0) c6T0
      (untilRun1 (euParams oneKS atomX2.reprF (Formula.eu atomX2 atomLe0).reprF)
        (untilInit oneKS (Formula.eu atomX2 atomLe0).reprF atomLe0.reprF c6T0)).table :=
    ⟨_, untilRun1_rtg _ _ (by decide), by decide, rfl⟩
  have hψ : ∀ s ∈ oneKS.states, ∃ q, c6T0 s atomLe0.reprF = some q := by
    intro s hs
    exact ⟨0, by rw [show c6T0 s atomLe0.reprF = (if atomLe0.reprF = atomX2.reprF then some 1
      else if atomLe0.reprF = atomLe0.reprF then some 0 else none) from rfl,
      if_neg (by decide), if_pos rfl]⟩
  exact ⟨hthm.1 atomX2 c3T0 _ _ (by decide) hagRun hagRun,
    hthm.2.1 atomX2 c3T0 _ _ (by decide) hegRun hegRun,
    hthm.2.2.1 atomX2 c3T0 _ _ (by decide) hafRun hafRun,
    hthm.2.2.2.1 atomX2 c3T0 _ _ (by decide) hefRun hefRun,
    hthm.2.2.2.2.1 atomX2 atomLe0 c6T0 _ _ hψ hauRun hauRun,
    hthm.2.2.2.2.2 atomX2 atomLe0 c6T0 _ _ hψ heuRun heuRun⟩

/-- C6: after `AW(φ,ψ).evaluate` returns, the entry under AW's canonical key
at every state is the maximum of the entries under the canonical keys of
`AG(φ)` and `A(φ)U(ψ)`, both of which are present in the table; symmetric
for EW with EG and EU. -/
theorem c6_weak_until_combination (G : KS) (l r : Formula)
    (hpredsub : ∀ u t, t ∈ G.preds u → t ∈ G.states)
    (hdual : ∀ u t, t ∈ G.preds u ↔ u ∈ G.succs t) :
    (∀ T T', (∀ s ∈ G.states, ∃ q, T s r.reprF = some q) →
      evaluate G (Formula.aw l r) T T' → ∀ s ∈ G.states,
      ∃ a b, T' s (Formula.ag l).reprF = some a ∧
        T' s (Formula.au l r).reprF = some b ∧
        T' s (Formula.aw l r).reprF = some (max a b)) ∧
    (∀ T T', (∀ s ∈ G.states, ∃ q, T s r.reprF = some q) →
      evaluate G (Formula.ew l r) T T' → ∀ s ∈ G.states,
      ∃ a b, T' s (Formula.eg l).reprF = some a ∧
        T' s (Formula.eu l r).reprF = some b ∧
        T' s (Formula.ew l r).reprF = some (max a b)) := by
  constructor
  · intro T T' hψ h s hs
    obtain ⟨T₂, T₃, h1, h2, rfl⟩ := h
    have hnone : ∀ s' ∈ G.states,
        resetKey G (Formula.ag l).reprF T s' (Formula.ag l).reprF = none := by
      intro s' hs'
      unfold resetKey
      rw [if_pos ⟨rfl, hs'⟩]
    obtain ⟨h1a, _, h1c⟩ := unary_runsTo G l.reprF (Formula.ag l).reprF
      (Ne.symm (Formula.reprF_ag_ne l)) listMin (fun v w => decide (v < w)) _ T₂
      hnone hpredsub h1
    have hψ2 : ∀ s' ∈ G.states, ∃ q, T₂ s' r.reprF = some q := by
      intro s' hs'
      by_cases hragk : r.reprF = (Formula.ag l).reprF
      · rw [hragk]
        exact ⟨_, h1a s' hs'⟩
      · obtain ⟨q, hq⟩ := hψ s' hs'
        refine ⟨q, ?_⟩
        rw [h1c s' r.reprF hragk]
        unfold resetKey
        rw [if_neg (fun hc => hragk hc.1)]
        exact hq
    have hpres : ∀ s' ∈ G.states, ∃ q,
        untilInit G (Formula.au l r).reprF r.reprF T₂ s' (Formula.au l r).reprF = some q := by
      intro s' hs'
      obtain ⟨q, hq⟩ := hψ2 s' hs'
      refine ⟨q, ?_⟩
      unfold untilInit
      rw [if_pos ⟨rfl, hs'⟩]
      exact hq
    obtain ⟨c', hrun, hq, rfl⟩ := h2
    obtain ⟨b1, _, _, b3, _, _⟩ := until_run_inv G l.reprF (Formula.au l r).reprF
      (Ne.symm (Formula.reprF_au_ne_left l r)) listMin _ hpres hpredsub hdual hrun
    have hag3 : c'.table s (Formula.ag l).reprF =
        some (unaryCompute G l.reprF listMin (resetKey G (Formula.ag l).reprF T) s) := by
      rw [b1 s (Formula.ag l).reprF (Formula.reprF_ag_ne_au l l r)]
      unfold untilInit
      rw [if_neg (fun hc => (Formula.reprF_ag_ne_au l l r) hc.1)]
      exact h1a s hs
    obtain ⟨b, hb⟩ := b3 s hs
    refine ⟨unaryCompute G l.reprF listMin (resetKey G (Formula.ag l).reprF T) s, b,
      ?_, ?_, ?_⟩
    · unfold writeAll
      rw [if_neg (fun hc => (Formula.reprF_aw_ne_ag l r l) hc.1.symm)]
      exact hag3
    · unfold writeAll
      rw [if_neg (fun hc => (Formula.reprF_aw_ne_au l r) hc.1.symm)]
      exact hb
    · unfold writeAll
      rw [if_pos ⟨rfl, hs⟩]
      simp only [getQ, hag3, hb, Option.getD_some]
  · intro T T' hψ h s hs
    obtain ⟨T₂, T₃, h1, h2, rfl⟩ := h
    have hnone : ∀ s' ∈ G.states,
        resetKey G (Formula.eg l).reprF T s' (Formula.eg l).reprF = none := by
      intro s' hs'
      unfold resetKey
      rw [if_pos ⟨rfl, hs'⟩]
    obtain ⟨h1a, _, h1c⟩ := unary_runsTo G l.reprF (Formula.eg l).reprF
      (Ne.symm (Formula.reprF_eg_ne l)) listMax (fun v w => decide (v < w)) _ T₂
      hnone hpredsub h1
    have hψ2 : ∀ s' ∈ G.states, ∃ q, T₂ s' r.reprF = some q := by
      intro s' hs'
      by_cases hragk : r.reprF = (Formula.eg l).reprF
      · rw [hragk]
        exact ⟨_, h1a s' hs'⟩
      · obtain ⟨q, hq⟩ := hψ s' hs'
        refine ⟨q, ?_⟩
        rw [h1c s' r.reprF hragk]
        unfold resetKey
        rw [if_neg (fun hc => hragk hc.1)]
        exact hq
    have hpres : ∀ s' ∈ G.states, ∃ q,
        untilInit G (Formula.eu l r).reprF r.reprF T₂ s' (Formula.eu l r).reprF = some q := by
      intro s' hs'
      obtain ⟨q, hq⟩ := hψ2 s' hs'
      refine ⟨q, ?_⟩
      unfold untilInit
      rw [if_pos ⟨rfl, hs'⟩]
      exact hq
    obtain ⟨c', hrun, hq, rfl⟩ := h2
    obtain ⟨b1, _, _, b3, _, _⟩ := until_run_inv G l.reprF (Formula.eu l r).reprF
      (Ne.symm (Formula.reprF_eu_ne_left l r)) listMax _ hpres hpredsub hdual hrun
    have hag3 : c'.table s (Formula.eg l).reprF =
        some (unaryCompute G l.reprF listMax (resetKey G (Formula.eg l).reprF T) s) := by
      rw [b1 s (Formula.eg l).reprF (Formula.reprF_eg_ne_eu l l r)]
      unfold untilInit
      rw [if_neg (fun hc => (Formula.reprF_eg_ne_eu l l r) hc.1)]
      exact h1a s hs
    obtain ⟨b, hb⟩ := b3 s hs
    refine ⟨unaryCompute G l.reprF listMax (resetKey G (Formula.eg l).reprF T) s, b,
      ?_, ?_, ?_⟩
    · unfold writeAll
      rw [if_neg (fun hc => (Formula.reprF_ew_ne_eg l r l) hc.1.symm)]
      exact hag3
    · unfold writeAll
      rw [if_neg (fun hc => (Formula.reprF_ew_ne_eu l r) hc.1.symm)]
      exact hb
    · unfold writeAll
      rw [if_pos ⟨rfl, hs⟩]
      simp only [getQ, hag3, hb, Option.getD_some]

lemma c6T0_right_present : ∀ s ∈ oneKS.states, ∃ q, c6T0 s atomLe0.reprF = some q := by
  intro s _
  exact ⟨0, by
    rw [show c6T0 s atomLe0.reprF = (if atomLe0.reprF = atomX2.reprF then some 1
      else if atomLe0.reprF = atomLe0.reprF then some 0 else none) from rfl,
      if_neg (by decide), if_pos rfl]⟩

/-- The terminated `AG` run embedded in the concrete `AW` evaluation. -/
def c6agRun : KConfig :=
  wlStepAt oneKS (agParams oneKS atomX2.reprF (Formula.ag atomX2).reprF)
    (wlStepAt oneKS (agParams oneKS atomX2.reprF (Formula.ag atomX2).reprF)
      (startConfig oneKS (resetKey oneKS (Formula.ag atomX2).reprF c6T0)) [0]) [0]

/-- The table after the embedded `AU` run of the concrete `AW` evaluation. -/
def c6auT3 : KTable :=
  (untilRun1 (auParams oneKS atomX2.reprF (Formula.au atomX2 atomLe0).reprF)
    (untilInit oneKS (Formula.au atomX2 atomLe0).reprF atomLe0.reprF c6agRun.table)).table

/-- The final table of the concrete `AW` evaluation. -/
def c6awFinal : KTable :=
  writeAll oneKS (Formula.aw atomX2 atomLe0).reprF
    (fun s => max (getQ c6auT3 s (Formula.ag atomX2).reprF)
      (getQ c6auT3 s (Formula.au atomX2 atomLe0).reprF)) c6auT3

/-- The terminated `EG` run embedded in the concrete `EW` evaluation. -/
def c6egRun : KConfig :=
  wlStepAt oneKS (egParams oneKS atomX2.reprF (Formula.eg atomX2).reprF)
    (wlStepAt oneKS (egParams oneKS atomX2.reprF (Formula.eg atomX2).reprF)
      (startConfig oneKS (resetKey oneKS (Formula.eg atomX2).reprF c6T0)) [0]) [0]

/-- The table after the embedded `EU` run of the concrete `EW` evaluation. -/
def c6euT3 : KTable :=
  (untilRun1 (euParams oneKS atomX2.reprF (Formula.eu atomX2 atomLe0).reprF)
    (untilInit oneKS (Formula.eu atomX2 atomLe0).reprF atomLe0.reprF c6egRun.table)).table

/-- The final table of the concrete `EW` evaluation. -/
def c6ewFinal : KTable :=
  writeAll oneKS (Formula.ew atomX2 atomLe0).reprF
    (fun s => max (getQ c6euT3 s (Formula.eg atomX2).reprF)
      (getQ c6euT3 s (Formula.eu atomX2 atomLe0).reprF)) c6euT3

/-- C6 witness: a complete `AW` and `EW` evaluation on the one-state model. -/
theorem c6_weak_until_combination_witness :
    (∃ a b, c6awFinal [0] (Formula.ag atomX2).reprF = some a ∧
      c6awFinal [0] (Formula.au atomX2 atomLe0).reprF = some b ∧
      c6awFinal [0] (Formula.aw atomX2 atomLe0).reprF = some (max a b)) ∧
    (∃ a b, c6ewFinal [0] (Formula.eg atomX2).reprF = some a ∧
      c6ewFinal [0] (Formula.eu atomX2 atomLe0).reprF = some b ∧
      c6ewFinal [0] (Formula.ew atomX2 atomLe0).reprF = some (max a b)) := by
  have hthm := c6_weak_until_combination oneKS atomX2 atomLe0 oneKS_predsub oneKS_dual
  have hAW : evaluate oneKS (Formula.aw atomX2 atomLe0) c6T0 c6awFinal :=
    ⟨c6agRun.table, c6auT3,
      ⟨c6agRun, Relation.ReflTransGen.tail
        (Relation.ReflTransGen.tail Relation.ReflTransGen.refl ⟨[0], by decide, rfl⟩)
        ⟨[0], by decide, rfl⟩, by decide, rfl⟩,
      ⟨_, untilRun1_rtg _ _ (by decide), by decide, rfl⟩, rfl⟩
  have hEW : evaluate oneKS (Formula.ew atomX2 atomLe0) c6T0 c6ewFinal :=
    ⟨c6egRun.table, c6euT3,
      ⟨c6egRun, Relation.ReflTransGen.tail
        (Relation.ReflTransGen.tail Relation.ReflTransGen.refl ⟨[0], by decide, rfl⟩)
        ⟨[0], by decide, rfl⟩, by decide, rfl⟩,
      ⟨_, untilRun1_rtg _ _ (by decide), by decide, rfl⟩, rfl⟩
  exact ⟨hthm.1 c6T0 c6awFinal c6T0_right_present hAW [0] (by decide),
    hthm.2 c6T0 c6ewFinal c6T0_right_present hEW [0] (by decide)⟩

/-- The assumed atomic scores of `(x >= 2)` on the seed model:
`-1` at state 0, `-1/2` at state 1, `+1` at state 2; the `EF` entries carry
the `None` sentinel. -/
def seedT0 : KTable := fun s k =>
  if k = atomX2.reprF then
    (if s = [0] then some (-1) else if s = [1] then some (mkRat (-1) 2)
     else if s = [2] then some 1 else none)
  else none

/-- A terminated run of `EF (x >= 2)`'s worklist on the seed model: each
state is popped twice, the first round writing the one-step values, the
second round changing nothing. -/
def seedEFRun : KConfig :=
  wlStepAt seedKS (efParams seedKS atomX2.reprF (Formula.ef atomX2).reprF)
    (wlStepAt seedKS (efParams seedKS atomX2.reprF (Formula.ef atomX2).reprF)
      (wlStepAt seedKS (efParams seedKS atomX2.reprF (Formula.ef atomX2).reprF)
        (wlStepAt seedKS (efParams seedKS atomX2.reprF (Formula.ef atomX2).reprF)
          (wlStepAt seedKS (efParams seedKS atomX2.reprF (Formula.ef atomX2).reprF)
            (wlStepAt seedKS (efParams seedKS atomX2.reprF (Formula.ef atomX2).reprF)
              (startConfig seedKS seedT0) [0]) [1]) [2]) [0]) [1]) [2]

/-- C1 (code_bug record): on the seed model with the assumed atomic scores
of `(x >= 2)`, evaluating `EF (x >= 2)` writes `-1/2` at state 0 — not `+1`
as the claim (spec scenario S2) requires.  The worklist of `EF.evaluate`
reads only the operand's scores of the successors (never its own entries),
so the `+1` at state 2 is never propagated backwards past state 1. -/
theorem c1_ef_seed_not_plus_one :
    ∃ T', evaluate seedKS (Formula.ef atomX2) seedT0 T' ∧
      T' [0] (Formula.ef atomX2).reprF = some (mkRat (-1) 2) ∧
      (mkRat (-1) 2 : ℚ) = -(1/2) ∧
      T' [1] (Formula.ef atomX2).reprF = some 1 ∧
      T' [2] (Formula.ef atomX2).reprF = some 1 :=
  ⟨seedEFRun.table,
    ⟨seedEFRun,
      Relation.ReflTransGen.tail (Relation.ReflTransGen.tail (Relation.ReflTransGen.tail
        (Relation.ReflTransGen.tail (Relation.ReflTransGen.tail (Relation.ReflTransGen.tail
          Relation.ReflTransGen.refl
          ⟨[0], by decide, rfl⟩) ⟨[1], by decide, rfl⟩) ⟨[2], by decide, rfl⟩)
          ⟨[0], by decide, rfl⟩) ⟨[1], by decide, rfl⟩) ⟨[2], by decide, rfl⟩,
      by decide, rfl⟩,
    by decide, by rw [Rat.mkRat_eq_div]; norm_num, by decide, by decide⟩

/-- C5: every score the driver writes while evaluating a negation-free
formula over a Kripke structure whose states lie in the ambient box is in
`[-1, 1]` (the kernel and the driver are modelled from the spec, §4.2/§6). -/
theorem c5_scores_in_range (G : KS)
    (hstates : ∀ s ∈ G.states, s ∈ boxStates (maxesOf G))
    (φ : Formula) (_hneg : φ.hasNegation = false)
    (subs : List Formula) (_hsubs : φ.get_subformulae = .ok subs)
    (T' : KTable) (hrun : EvalSeq G subs (fun _ _ => none) T')
    (s : State) (k : String) (v : ℚ) (hv : T' s k = some v) :
    -1 ≤ v ∧ v ≤ 1 :=
  EvalSeq_range G hstates subs hrun (fun _ _ _ h => by cases h) s k v hv

/-- C5 witness: the driver run of the single-leaf formula `(x >= 2)` on the
seed model; the entry written at state 0 is in range. -/
theorem c5_scores_in_range_witness :
    -1 ≤ atomicScore [[2]] (maxesOf seedKS) [0] ∧
      atomicScore [[2]] (maxesOf seedKS) [0] ≤ 1 :=
  c5_scores_in_range seedKS (by decide) atomX2 rfl [atomX2] rfl
    (writeAll seedKS atomX2.reprF
      (fun s => atomicScore [[2]] (maxesOf seedKS) s) (fun _ _ => none))
    ⟨_, ⟨[[2]], by rfl, rfl⟩, rfl⟩ [0] atomX2.reprF
    (atomicScore [[2]] (maxesOf seedKS) [0])
    (by unfold writeAll; rw [if_pos ⟨rfl, by decide⟩])

end QuantCTL
